import Mathlib

/-!
Loki query encoder (`src/adapters/lokijs/worker/encodeQuery/index.js`).

A shallow embedding of the encoder that turns a serialized query description into
a LokiJS query object, followed by theorems about it.

Conventions of the embedding:

* JavaScript values produced by the encoder are terms of `LokiRawQuery`; an object
  literal is the list of its key/value pairs in the order they are written.
* `invariant(false, ...)` and `throw` become `Except.error`, the normal return becomes
  `Except.ok`.
* `likeToRegexp` (`utils/fp/likeToRegexp`) is not part of the source file, so every
  function that reaches it takes it as the parameter `likeToRegexp`; it builds a regular
  expression from the pattern and throws on a pattern that does not give one, so the
  parameter returns `none` there and the caller fails with `likeToRegexpThrew`.
* JavaScript numbers are carried as `Int`; the encoder never computes with them.
-/

namespace EncodeQuery

/-! Section: Data model -/

/-- Keys of the `operators` table (the `Operator` type of `QueryDescription`). -/
inductive Operator
  | eq | notEq | gt | gte | weakGt | lt | lte | oneOf | notIn | between | like | notLike
  deriving DecidableEq, Repr

/-- Scalar operand of a comparison: `string | boolean | number | null`. -/
inductive Value
  | null
  | bool (b : Bool)
  | num (n : Int)
  | str (s : String)
  deriving DecidableEq, Repr

/-- What `getComparisonRight` hands to an operator function: a scalar or an array of scalars. -/
inductive CompoundValue
  | single (value : Value)
  | many (values : List Value)
  deriving DecidableEq, Repr

/-- Right-hand side of a comparison: `{value}`, `{values}` or `{column}`. -/
inductive ComparisonRight
  | value (value : Value)
  | values (values : List Value)
  | column (column : String)
  deriving DecidableEq, Repr

/-- The record `{ operator, right }`. -/
structure Comparison where
  operator : Operator
  right : ComparisonRight
  deriving DecidableEq, Repr

mutual
/-- One node of the condition tree, tagged by `clause.type`. -/
inductive Clause
  | where_ (left : String) (comparison : Comparison)
  | and (conditions : List Clause)
  | or (conditions : List Clause)
  | on (table : String) (conditions : List Clause)
  | loki (expr : LokiRawQuery)
/-- JavaScript values that occur in an encoded query. `clauses` is an array of clause
objects (the `originalConditions` of a join). -/
inductive LokiRawQuery
  | undefined
  | null
  | bool (b : Bool)
  | num (n : Int)
  | str (s : String)
  | arr (items : List LokiRawQuery)
  | obj (fields : List (String × LokiRawQuery))
  | clauses (conditions : List Clause)
end

/-- Relation kind of an association (`info.type`). -/
inductive RelationKind
  | belongs_to
  | has_many
  deriving DecidableEq, Repr

/-- Modelled from the spec: the `AssociationInfo` type of `Model` is not among the
sources; the spec gives it as `{ relationKind, foreignKey, key }`. -/
structure AssociationInfo where
  type : RelationKind
  foreignKey : String
  key : String
  deriving DecidableEq, Repr

/-- The record `{ to, info }`. -/
structure QueryAssociation where
  «to» : String
  info : AssociationInfo
  deriving DecidableEq, Repr

/-- One entry of `description.sortBy`. -/
structure SortBy where
  sortColumn : String
  sortOrder : String
  deriving DecidableEq, Repr

/-- The record `query.description`, restricted to the fields `encodeQuery` reads. -/
structure QueryDescription where
  «where» : List Clause
  joinTables : List String
  sortBy : List SortBy
  take : Option Int

/-- The argument of `encodeQuery`. -/
structure SerializedQuery where
  table : String
  description : QueryDescription
  associations : List QueryAssociation

/-- The result of `encodeQuery`. -/
structure LokiQuery where
  table : String
  query : LokiRawQuery
  hasJoins : Bool

/-- Failures raised by the encoder: one per error message of the source, and the exception
that escapes from `likeToRegexp` on a pattern it cannot turn into a regular expression. -/
inductive EncodeError
  | columnComparisonsUnimplemented
  | missingAssociation
  | sortByNotSupported
  | takeNotSupported
  | likeToRegexpThrew
  deriving DecidableEq, Repr

/-! Section: The encoder -/

open LokiRawQuery

/-- A scalar operand as a JavaScript value. -/
def Value.toLoki : Value → LokiRawQuery
  | .null => LokiRawQuery.null
  | .bool b => LokiRawQuery.bool b
  | .num n => LokiRawQuery.num n
  | .str s => LokiRawQuery.str s

/-- A scalar or array operand as a JavaScript value. -/
def CompoundValue.toLoki : CompoundValue → LokiRawQuery
  | .single value => value.toLoki
  | .many values => arr (values.map Value.toLoki)

/-- The test `typeof value === 'string'`, returning the string when it holds. -/
def CompoundValue.asString : CompoundValue → Option String
  | .single (.str s) => some s
  | _ => none

/-- Modelled from the spec: `utils/fp/objOf` is not among the sources; `objOf(key)(value)`
is the one-key object `{ [key]: value }`, the operator-object form the spec's operator
table describes. -/
def objOf (key : String) (value : LokiRawQuery) : LokiRawQuery :=
  obj [(key, value)]

/-- Source lines 58-62: the first probe that matches decides; `{column}` raises. -/
def getComparisonRight : ComparisonRight → Except EncodeError CompoundValue
  | .value value => .ok (.single value)
  | .values values => .ok (.many values)
  | .column _ => .error .columnComparisonsUnimplemented

/-- An operator function that cannot throw: `CompoundValue => LokiRawQuery`. -/
abbrev OperatorFunction := CompoundValue → LokiRawQuery

/-- Source line 71. -/
def weakNotEqual : OperatorFunction := fun value =>
  obj [("$not", obj [("$aeq", value.toLoki)])]

/-- Source lines 73-75. -/
def noNullComparisons (operator : OperatorFunction) : OperatorFunction := fun value =>
  obj [("$and", arr [operator value, weakNotEqual (.single .null)])]

/-- Source lines 77-85. The call `likeToRegexp(value)` can throw; the exception is not
caught here. -/
def like (likeToRegexp : String → Option LokiRawQuery) :
    CompoundValue → Except EncodeError LokiRawQuery := fun value =>
  match value.asString with
  | some s =>
    match likeToRegexp s with
    | some regexp => pure (obj [("$regex", regexp)])
    | none => .error .likeToRegexpThrew
  | none => pure (obj [])

/-- Source lines 87-95. The call `likeToRegexp(value)` can throw; the exception is not
caught here. -/
def notLike (likeToRegexp : String → Option LokiRawQuery) :
    CompoundValue → Except EncodeError LokiRawQuery := fun value =>
  match value.asString with
  | some s =>
    match likeToRegexp s with
    | some regexp =>
      pure (obj [("$and", arr [obj [("$not", obj [("$eq", LokiRawQuery.null)])],
                               obj [("$not", obj [("$regex", regexp)])]])])
    | none => .error .likeToRegexpThrew
  | none => pure (obj [])

/-- Source lines 97-110: the operator table. Only `like` and `notLike` can fail. -/
def operators (likeToRegexp : String → Option LokiRawQuery) :
    Operator → CompoundValue → Except EncodeError LokiRawQuery
  | .eq => fun value => pure (objOf "$aeq" value.toLoki)
  | .notEq => fun value => pure (weakNotEqual value)
  | .gt => fun value => pure (objOf "$gt" value.toLoki)
  | .gte => fun value => pure (objOf "$gte" value.toLoki)
  | .weakGt => fun value => pure (objOf "$gt" value.toLoki)
  | .lt => fun value => pure (noNullComparisons (fun value => objOf "$lt" value.toLoki) value)
  | .lte => fun value => pure (noNullComparisons (fun value => objOf "$lte" value.toLoki) value)
  | .oneOf => fun value => pure (objOf "$in" value.toLoki)
  | .notIn => fun value => pure (noNullComparisons (fun value => objOf "$nin" value.toLoki) value)
  | .between => fun value => pure (objOf "$between" value.toLoki)
  | .like => like likeToRegexp
  | .notLike => notLike likeToRegexp

/-- Source lines 112-124. -/
def encodeComparison (likeToRegexp : String → Option LokiRawQuery) (comparison : Comparison) :
    Except EncodeError LokiRawQuery := do
  let comparisonRight ← getComparisonRight comparison.right
  match comparisonRight.asString with
  | some s =>
    if comparison.operator = .eq then
      pure (obj [("$eq", str s)])
    else if comparison.operator = .notEq then
      pure (obj [("$ne", str s)])
    else
      operators likeToRegexp comparison.operator comparisonRight
  | none => operators likeToRegexp comparison.operator comparisonRight

/-- Source line 127. -/
def hackAlwaysTrueCondition : LokiRawQuery :=
  obj [("_fakeAlwaysTrue", obj [("$eq", undefined)])]

/-- The probe `has('column', right)`. -/
def ComparisonRight.hasColumn : ComparisonRight → Bool
  | .column _ => true
  | _ => false

/-- Source lines 129-134. -/
def encodeWhereDescription (likeToRegexp : String → Option LokiRawQuery) (left : String)
    (comparison : Comparison) : Except EncodeError LokiRawQuery :=
  if comparison.right.hasColumn then
    pure hackAlwaysTrueCondition
  else do
    let encoded ← encodeComparison likeToRegexp comparison
    pure (objOf left encoded)

/-- Source lines 178-182: `undefined` for no query, the query itself for one, `$and` otherwise. -/
def concatRawQueries : List LokiRawQuery → LokiRawQuery
  | [] => undefined
  | [query] => query
  | queries => objOf "$and" (arr queries)

/-- Source lines 190-194. -/
def encodeMapKey (info : AssociationInfo) : String :=
  if info.type = .belongs_to then "id" else info.foreignKey

/-- Source lines 196-200. -/
def encodeJoinKey (info : AssociationInfo) : String :=
  if info.type = .belongs_to then info.key else "id"

mutual
/-- Source lines 136-151. The `default` branch has no counterpart: `Clause` is closed. -/
def encodeCondition (likeToRegexp : String → Option LokiRawQuery) (associations : List QueryAssociation) :
    Clause → Except EncodeError LokiRawQuery
  | .and conditions => encodeAndOr likeToRegexp "$and" associations conditions
  | .or conditions => encodeAndOr likeToRegexp "$or" associations conditions
  | .where_ left comparison => encodeWhereDescription likeToRegexp left comparison
  | .on table conditions => encodeJoin likeToRegexp associations table conditions
  | .loki expr => pure expr
termination_by clause => (sizeOf clause, 0)
/-- Source lines 153-156: `conditions.map(encodeCondition(associations))`, left to right,
the first failure aborting the whole map. -/
def encodeConditions (likeToRegexp : String → Option LokiRawQuery) (associations : List QueryAssociation) :
    List Clause → Except EncodeError (List LokiRawQuery)
  | [] => pure []
  | clause :: rest => do
    let encoded ← encodeCondition likeToRegexp associations clause
    let encodedRest ← encodeConditions likeToRegexp associations rest
    pure (encoded :: encodedRest)
termination_by conditions => (sizeOf conditions, 0)
/-- Source lines 158-168: `encodeAnd` is `encodeAndOr "$and"`, `encodeOr` is `encodeAndOr "$or"`;
the argument is the `conditions` field of the clause. -/
def encodeAndOr (likeToRegexp : String → Option LokiRawQuery) (op : String)
    (associations : List QueryAssociation) (clauseConditions : List Clause) :
    Except EncodeError LokiRawQuery := do
  let conditions ← encodeConditions likeToRegexp associations clauseConditions
  match conditions with
  | [condition] => pure condition
  | _ => pure (obj [(op, arr conditions)])
termination_by (sizeOf clauseConditions, 1)
/-- Source lines 184-188. -/
def encodeRootConditions (likeToRegexp : String → Option LokiRawQuery)
    (associations : List QueryAssociation) (conditions : List Clause) :
    Except EncodeError LokiRawQuery := do
  let encoded ← encodeConditions likeToRegexp associations conditions
  pure (concatRawQueries encoded)
termination_by (sizeOf conditions, 1)
/-- Source lines 202-218: the arguments are the `table` and `conditions` fields of the clause. -/
def encodeJoin (likeToRegexp : String → Option LokiRawQuery) (associations : List QueryAssociation)
    (table : String) (conditions : List Clause) : Except EncodeError LokiRawQuery :=
  match associations.find? (fun association => table == association.«to») with
  | none => .error .missingAssociation
  | some association => do
    let query ← encodeRootConditions likeToRegexp associations conditions
    pure (obj [("$join", obj [
      ("table", str table),
      ("query", query),
      ("originalConditions", clauses conditions),
      ("mapKey", str (encodeMapKey association.info)),
      ("joinKey", str (encodeJoinKey association.info))])])
termination_by (sizeOf conditions, 2)
end

/-- Source lines 220-236. `!take` holds for an absent `take` and for `0`. -/
def encodeQuery (likeToRegexp : String → Option LokiRawQuery) (query : SerializedQuery) :
    Except EncodeError LokiQuery :=
  if query.description.sortBy.length ≠ 0 then
    .error .sortByNotSupported
  else if query.description.take.isSome ∧ query.description.take ≠ some 0 then
    .error .takeNotSupported
  else do
    let encoded ← encodeRootConditions likeToRegexp query.associations query.description.«where»
    pure { table := query.table, query := encoded,
           hasJoins := decide (query.description.joinTables.length ≠ 0) }

/-! Section: Notions used to state properties of clause trees -/

mutual
/-- Tables named by the `On` clauses of a clause tree, at any depth: the clause itself, the
children of `And`/`Or`, the conditions of `On`. This is not part of the encoder; it is the
vocabulary for statements about joins. -/
def Clause.onTables : Clause → List String
  | .where_ _ _ => []
  | .and conditions => Clause.onTablesList conditions
  | .or conditions => Clause.onTablesList conditions
  | .on table conditions => table :: Clause.onTablesList conditions
  | .loki _ => []
/-- Tables named by the `On` clauses of a list of clause trees, at any depth. -/
def Clause.onTablesList : List Clause → List String
  | [] => []
  | clause :: rest => clause.onTables ++ Clause.onTablesList rest
end

/-- Every listed table is the `to` of at least one of the associations. -/
def allDeclared (associations : List QueryAssociation) (tables : List String) : Prop :=
  ∀ table ∈ tables, ∃ association ∈ associations, association.«to» = table

/-- String patterns that encoding a comparison hands to `likeToRegexp`: the operand when the
operator is `like` or `notLike` and the operand is a string, nothing otherwise. -/
def Comparison.patterns (comparison : Comparison) : List String :=
  if comparison.operator = .like ∨ comparison.operator = .notLike then
    match comparison.right with
    | .value (.str s) => [s]
    | _ => []
  else
    []

mutual
/-- String patterns of the `like`/`notLike` comparisons of a clause tree, at any depth. -/
def Clause.patterns : Clause → List String
  | .where_ _ comparison => comparison.patterns
  | .and conditions => Clause.patternsList conditions
  | .or conditions => Clause.patternsList conditions
  | .on _ conditions => Clause.patternsList conditions
  | .loki _ => []
/-- String patterns of the `like`/`notLike` comparisons of a list of clause trees. -/
def Clause.patternsList : List Clause → List String
  | [] => []
  | clause :: rest => clause.patterns ++ Clause.patternsList rest
end

/-- Every listed pattern is turned into a regular expression by `likeToRegexp`. -/
def allAccepted (likeToRegexp : String → Option LokiRawQuery) (patterns : List String) : Prop :=
  ∀ pattern ∈ patterns, ∃ regexp, likeToRegexp pattern = some regexp

/-- How an encoder result depends on two conditions, `declared` (the `On` tables to resolve
all have an association) and `accepted` (the patterns to translate are all accepted): a value
needs both, the missing-association failure means the first is violated, the failure of
`likeToRegexp` means the second is, and there is no other failure. -/
def Outcome {α : Type} (declared accepted : Prop) (result : Except EncodeError α) : Prop :=
  match result with
  | .ok _ => declared ∧ accepted
  | .error e =>
    (e = .missingAssociation ∧ ¬ declared) ∨ (e = .likeToRegexpThrew ∧ ¬ accepted)

/-! Section: Where clauses and the operator table -/

/-- A `Where` clause is encoded by `encodeWhereDescription`. -/
theorem encodeCondition_where (likeToRegexp : String → Option LokiRawQuery)
    (associations : List QueryAssociation) (left : String) (comparison : Comparison) :
    encodeCondition likeToRegexp associations (.where_ left comparison)
      = encodeWhereDescription likeToRegexp left comparison := by
  rw [encodeCondition]

/-- A right operand that `getComparisonRight` accepts has no `column`. -/
theorem hasColumn_eq_false_of_extracted (right : ComparisonRight) (v : CompoundValue)
    (hright : getComparisonRight right = .ok v) : right.hasColumn = false := by
  cases right with
  | column col => cases hright
  | value value => rfl
  | values values => rfl

/-- A comparison whose operand is extracted as `v` and which is not taken by the string fast
path is encoded by the operator table entry. -/
theorem encodeComparison_operators (likeToRegexp : String → Option LokiRawQuery)
    (operator : Operator) (right : ComparisonRight) (v : CompoundValue)
    (hright : getComparisonRight right = .ok v)
    (hslow : v.asString = none ∨ (operator ≠ .eq ∧ operator ≠ .notEq)) :
    encodeComparison likeToRegexp ⟨operator, right⟩ = operators likeToRegexp operator v := by
  simp only [encodeComparison, hright, bind, Except.bind]
  rcases hslow with h | ⟨h1, h2⟩
  · rw [h]
  · cases v.asString with
    | none => rfl
    | some s => simp [h1, h2]

/-- A `Where` clause whose operand is extracted as `v` and whose comparison is not taken by
the string fast path is the column object around what the operator table entry returns, and
fails when that entry fails. -/
theorem encodeWhere_operators (likeToRegexp : String → Option LokiRawQuery) (left : String)
    (operator : Operator) (right : ComparisonRight) (v : CompoundValue)
    (hright : getComparisonRight right = .ok v)
    (hslow : v.asString = none ∨ (operator ≠ .eq ∧ operator ≠ .notEq)) :
    encodeWhereDescription likeToRegexp left ⟨operator, right⟩
      = (do
          let encoded ← operators likeToRegexp operator v
          pure (obj [(left, encoded)])) := by
  simp only [encodeWhereDescription, hasColumn_eq_false_of_extracted right v hright,
    encodeComparison_operators likeToRegexp operator right v hright hslow, objOf]
  rfl

/-- C1: for `lt`, `lte` and `notIn` the column's predicate is `$and` of exactly two conjuncts,
the native operator (`$lt`, `$lte`, `$nin`) applied to the operand followed by the not-null
conjunct `{$not: {$aeq: null}}`; `gt`, `gte` and `weakGt` are the bare native operator. -/
theorem where_lt_lte_notIn_exclude_null (likeToRegexp : String → Option LokiRawQuery)
    (associations : List QueryAssociation) (c : String) (right : ComparisonRight)
    (v : CompoundValue) (hright : getComparisonRight right = .ok v) :
    encodeCondition likeToRegexp associations (.where_ c ⟨.lt, right⟩)
        = .ok (obj [(c, obj [("$and", arr [obj [("$lt", v.toLoki)],
            obj [("$not", obj [("$aeq", LokiRawQuery.null)])]])])])
    ∧ encodeCondition likeToRegexp associations (.where_ c ⟨.lte, right⟩)
        = .ok (obj [(c, obj [("$and", arr [obj [("$lte", v.toLoki)],
            obj [("$not", obj [("$aeq", LokiRawQuery.null)])]])])])
    ∧ encodeCondition likeToRegexp associations (.where_ c ⟨.notIn, right⟩)
        = .ok (obj [(c, obj [("$and", arr [obj [("$nin", v.toLoki)],
            obj [("$not", obj [("$aeq", LokiRawQuery.null)])]])])])
    ∧ encodeCondition likeToRegexp associations (.where_ c ⟨.gt, right⟩)
        = .ok (obj [(c, obj [("$gt", v.toLoki)])])
    ∧ encodeCondition likeToRegexp associations (.where_ c ⟨.gte, right⟩)
        = .ok (obj [(c, obj [("$gte", v.toLoki)])])
    ∧ encodeCondition likeToRegexp associations (.where_ c ⟨.weakGt, right⟩)
        = .ok (obj [(c, obj [("$gt", v.toLoki)])]) := by
  refine ⟨?_, ?_, ?_, ?_, ?_, ?_⟩ <;>
    rw [encodeCondition_where,
      encodeWhere_operators likeToRegexp c _ right v hright (Or.inr ⟨by decide, by decide⟩)] <;>
    rfl

/-- Witness for C1 at `Where("score", op, 5)`. -/
theorem where_lt_lte_notIn_exclude_null_witness :
    getComparisonRight (.value (.num 5)) = .ok (.single (.num 5))
    ∧ encodeCondition (fun s => some (str s)) [] (.where_ "score" ⟨.lt, .value (.num 5)⟩)
        = .ok (obj [("score", obj [("$and", arr [obj [("$lt", num 5)],
            obj [("$not", obj [("$aeq", LokiRawQuery.null)])]])])])
    ∧ encodeCondition (fun s => some (str s)) [] (.where_ "score" ⟨.gt, .value (.num 5)⟩)
        = .ok (obj [("score", obj [("$gt", num 5)])]) :=
  have h := where_lt_lte_notIn_exclude_null (fun s => some (str s)) [] "score"
    (.value (.num 5)) (.single (.num 5)) rfl
  ⟨rfl, h.1, h.2.2.2.1⟩

/-- An operand that is not a JavaScript string fails the `typeof ... === 'string'` test. -/
theorem asString_eq_none_of_ne_str (v : CompoundValue)
    (hv : ∀ s : String, v ≠ .single (.str s)) : v.asString = none := by
  match v, hv with
  | .single (.str s), hv => exact absurd rfl (hv s)
  | .single .null, _ => rfl
  | .single (.bool _), _ => rfl
  | .single (.num _), _ => rfl
  | .many _, _ => rfl

/-- C2: with a string operand `s`, `eq` is `{c: {$eq: s}}` and `notEq` is `{c: {$ne: s}}`;
with an operand `v` that is not a string, `eq` is `{c: {$aeq: v}}` and `notEq` is
`{c: {$not: {$aeq: v}}}`, and these differ from the strict forms on the same operand. -/
theorem where_eq_notEq_strict_for_strings (likeToRegexp : String → Option LokiRawQuery)
    (associations : List QueryAssociation) (c : String) (s : String)
    (right : ComparisonRight) (v : CompoundValue)
    (hright : getComparisonRight right = .ok v)
    (hv : ∀ t : String, v ≠ .single (.str t)) :
    encodeCondition likeToRegexp associations (.where_ c ⟨.eq, .value (.str s)⟩)
        = .ok (obj [(c, obj [("$eq", str s)])])
    ∧ encodeCondition likeToRegexp associations (.where_ c ⟨.notEq, .value (.str s)⟩)
        = .ok (obj [(c, obj [("$ne", str s)])])
    ∧ encodeCondition likeToRegexp associations (.where_ c ⟨.eq, right⟩)
        = .ok (obj [(c, obj [("$aeq", v.toLoki)])])
    ∧ encodeCondition likeToRegexp associations (.where_ c ⟨.notEq, right⟩)
        = .ok (obj [(c, obj [("$not", obj [("$aeq", v.toLoki)])])])
    ∧ obj [(c, obj [("$aeq", v.toLoki)])] ≠ obj [(c, obj [("$eq", v.toLoki)])]
    ∧ obj [(c, obj [("$not", obj [("$aeq", v.toLoki)])])] ≠ obj [(c, obj [("$ne", v.toLoki)])] := by
  have hnone := asString_eq_none_of_ne_str v hv
  refine ⟨?_, ?_, ?_, ?_, ?_, ?_⟩
  · simp [encodeCondition_where, encodeWhereDescription, ComparisonRight.hasColumn,
      encodeComparison, getComparisonRight, CompoundValue.asString, objOf, bind, Except.bind,
      pure, Except.pure]
  · simp [encodeCondition_where, encodeWhereDescription, ComparisonRight.hasColumn,
      encodeComparison, getComparisonRight, CompoundValue.asString, objOf, bind, Except.bind,
      pure, Except.pure]
  · rw [encodeCondition_where,
      encodeWhere_operators likeToRegexp c _ right v hright (Or.inl hnone)]
    rfl
  · rw [encodeCondition_where,
      encodeWhere_operators likeToRegexp c _ right v hright (Or.inl hnone)]
    rfl
  · simp
  · simp

/-- Witness for C2 at `Where("status", op, "active")` and `Where("status", op, 1)`. -/
theorem where_eq_notEq_strict_for_strings_witness :
    getComparisonRight (.value (.num 1)) = .ok (.single (.num 1))
    ∧ encodeCondition (fun s => some (str s)) [] (.where_ "status" ⟨.eq, .value (.str "active")⟩)
        = .ok (obj [("status", obj [("$eq", str "active")])])
    ∧ encodeCondition (fun s => some (str s)) [] (.where_ "status" ⟨.eq, .value (.num 1)⟩)
        = .ok (obj [("status", obj [("$aeq", num 1)])]) :=
  have h := where_eq_notEq_strict_for_strings (fun s => some (str s)) [] "status" "active"
    (.value (.num 1)) (.single (.num 1)) rfl (fun _ hne => by cases hne)
  ⟨rfl, h.1, h.2.2.1⟩

/-! Section: Lists of conditions -/

/-- The empty array is encoded to the empty array. -/
theorem encodeConditions_nil (likeToRegexp : String → Option LokiRawQuery)
    (associations : List QueryAssociation) :
    encodeConditions likeToRegexp associations [] = .ok [] := by
  rw [encodeConditions]; rfl

/-- A non-empty array is encoded first clause first, then the rest. -/
theorem encodeConditions_cons (likeToRegexp : String → Option LokiRawQuery)
    (associations : List QueryAssociation) (clause : Clause) (rest : List Clause) :
    encodeConditions likeToRegexp associations (clause :: rest)
      = (do
          let encoded ← encodeCondition likeToRegexp associations clause
          let encodedRest ← encodeConditions likeToRegexp associations rest
          pure (encoded :: encodedRest)) := by
  rw [encodeConditions]

/-- The array encoder `encodeConditions` is the monadic map of `encodeCondition`. -/
theorem encodeConditions_eq_mapM (likeToRegexp : String → Option LokiRawQuery)
    (associations : List QueryAssociation) (conditions : List Clause) :
    encodeConditions likeToRegexp associations conditions
      = conditions.mapM (encodeCondition likeToRegexp associations) := by
  induction conditions with
  | nil => rw [encodeConditions_nil]; rfl
  | cons clause rest ih => rw [encodeConditions_cons, ih, List.mapM_cons]

/-- Encoding a concatenation encodes the two parts in order. -/
theorem encodeConditions_append (likeToRegexp : String → Option LokiRawQuery)
    (associations : List QueryAssociation) (pre post : List Clause) :
    encodeConditions likeToRegexp associations (pre ++ post)
      = (do
          let encodedPre ← encodeConditions likeToRegexp associations pre
          let encodedPost ← encodeConditions likeToRegexp associations post
          pure (encodedPre ++ encodedPost)) := by
  induction pre with
  | nil =>
    rw [List.nil_append, encodeConditions_nil]
    cases encodeConditions likeToRegexp associations post <;> rfl
  | cons clause rest ih =>
    rw [List.cons_append, encodeConditions_cons, encodeConditions_cons, ih]
    cases encodeCondition likeToRegexp associations clause with
    | error e => rfl
    | ok q =>
      cases encodeConditions likeToRegexp associations rest with
      | error e => rfl
      | ok qs =>
        cases encodeConditions likeToRegexp associations post <;> rfl

/-- The clauses of a list all encode successfully, to the listed queries, exactly when
`encodeConditions` returns that list. -/
theorem encodeConditions_eq_ok_iff (likeToRegexp : String → Option LokiRawQuery)
    (associations : List QueryAssociation) (conditions : List Clause)
    (queries : List LokiRawQuery) :
    encodeConditions likeToRegexp associations conditions = .ok queries
      ↔ List.Forall₂ (fun clause query =>
          encodeCondition likeToRegexp associations clause = .ok query) conditions queries := by
  induction conditions generalizing queries with
  | nil =>
    rw [encodeConditions_nil]
    constructor
    · intro h
      cases h
      exact List.Forall₂.nil
    · intro h
      cases h
      rfl
  | cons clause rest ih =>
    rw [encodeConditions_cons]
    constructor
    · intro h
      cases hc : encodeCondition likeToRegexp associations clause with
      | error e => rw [hc] at h; cases h
      | ok q =>
        cases hr : encodeConditions likeToRegexp associations rest with
        | error e => rw [hc, hr] at h; cases h
        | ok qs =>
          rw [hc, hr] at h
          cases h
          exact List.Forall₂.cons hc ((ih qs).1 hr)
    · intro h
      cases h with
      | cons hq hqs =>
        rw [hq, (ih _).2 hqs]
        rfl

/-- Unfolding of `encodeAndOr`. -/
theorem encodeAndOr_eq (likeToRegexp : String → Option LokiRawQuery) (op : String)
    (associations : List QueryAssociation) (clauseConditions : List Clause) :
    encodeAndOr likeToRegexp op associations clauseConditions
      = (do
          let conditions ← encodeConditions likeToRegexp associations clauseConditions
          match conditions with
          | [condition] => pure condition
          | _ => pure (obj [(op, arr conditions)])) := by
  rw [encodeAndOr]

/-- Unfolding of `encodeRootConditions`. -/
theorem encodeRootConditions_eq (likeToRegexp : String → Option LokiRawQuery)
    (associations : List QueryAssociation) (conditions : List Clause) :
    encodeRootConditions likeToRegexp associations conditions
      = (do
          let encoded ← encodeConditions likeToRegexp associations conditions
          pure (concatRawQueries encoded)) := by
  rw [encodeRootConditions]

/-- Unfolding of `encodeJoin`. -/
theorem encodeJoin_eq (likeToRegexp : String → Option LokiRawQuery)
    (associations : List QueryAssociation) (table : String) (conditions : List Clause) :
    encodeJoin likeToRegexp associations table conditions
      = (match associations.find? (fun association => table == association.«to») with
        | none => .error .missingAssociation
        | some association => do
          let query ← encodeRootConditions likeToRegexp associations conditions
          pure (obj [("$join", obj [
            ("table", str table),
            ("query", query),
            ("originalConditions", clauses conditions),
            ("mapKey", str (encodeMapKey association.info)),
            ("joinKey", str (encodeJoinKey association.info))])])) := by
  rw [encodeJoin]

/-- An `And` clause is encoded by `encodeAndOr "$and"`. -/
theorem encodeCondition_and (likeToRegexp : String → Option LokiRawQuery)
    (associations : List QueryAssociation) (conditions : List Clause) :
    encodeCondition likeToRegexp associations (.and conditions)
      = encodeAndOr likeToRegexp "$and" associations conditions := by
  rw [encodeCondition]

/-- An `Or` clause is encoded by `encodeAndOr "$or"`. -/
theorem encodeCondition_or (likeToRegexp : String → Option LokiRawQuery)
    (associations : List QueryAssociation) (conditions : List Clause) :
    encodeCondition likeToRegexp associations (.or conditions)
      = encodeAndOr likeToRegexp "$or" associations conditions := by
  rw [encodeCondition]

/-- An `On` clause is encoded by `encodeJoin`. -/
theorem encodeCondition_on (likeToRegexp : String → Option LokiRawQuery)
    (associations : List QueryAssociation) (table : String) (conditions : List Clause) :
    encodeCondition likeToRegexp associations (.on table conditions)
      = encodeJoin likeToRegexp associations table conditions := by
  rw [encodeCondition]

/-- A raw Loki expression is passed through. -/
theorem encodeCondition_loki (likeToRegexp : String → Option LokiRawQuery)
    (associations : List QueryAssociation) (expr : LokiRawQuery) :
    encodeCondition likeToRegexp associations (.loki expr) = .ok expr := by
  rw [encodeCondition]; rfl

/-- A one-element list is encoded to the one-element list of its clause's query. -/
theorem encodeConditions_singleton (likeToRegexp : String → Option LokiRawQuery)
    (associations : List QueryAssociation) (clause : Clause) :
    encodeConditions likeToRegexp associations [clause]
      = (do
          let encoded ← encodeCondition likeToRegexp associations clause
          pure [encoded]) := by
  rw [encodeConditions_cons, encodeConditions_nil]
  cases encodeCondition likeToRegexp associations clause <;> rfl

/-- With a single child, `encodeAndOr` returns what the child is encoded to. -/
theorem encodeAndOr_singleton (likeToRegexp : String → Option LokiRawQuery) (op : String)
    (associations : List QueryAssociation) (clause : Clause) :
    encodeAndOr likeToRegexp op associations [clause]
      = encodeCondition likeToRegexp associations clause := by
  rw [encodeAndOr_eq, encodeConditions_singleton]
  cases encodeCondition likeToRegexp associations clause <;> rfl

/-- With a single condition, the root encoder returns what the condition is encoded to. -/
theorem encodeRootConditions_singleton (likeToRegexp : String → Option LokiRawQuery)
    (associations : List QueryAssociation) (clause : Clause) :
    encodeRootConditions likeToRegexp associations [clause]
      = encodeCondition likeToRegexp associations clause := by
  rw [encodeRootConditions_eq, encodeConditions_singleton]
  cases encodeCondition likeToRegexp associations clause <;> rfl

/-- The root encoder on queries that were all encoded successfully. -/
theorem encodeRootConditions_of_ok (likeToRegexp : String → Option LokiRawQuery)
    (associations : List QueryAssociation) (conditions : List Clause)
    (queries : List LokiRawQuery)
    (h : encodeConditions likeToRegexp associations conditions = .ok queries) :
    encodeRootConditions likeToRegexp associations conditions
      = .ok (concatRawQueries queries) := by
  rw [encodeRootConditions_eq, h]; rfl

/-- Two or more queries are wrapped in `$and` by `concatRawQueries`. -/
theorem concatRawQueries_of_two_le (queries : List LokiRawQuery) (h : 2 ≤ queries.length) :
    concatRawQueries queries = obj [("$and", arr queries)] := by
  match queries, h with
  | _ :: _ :: _, _ => rfl

/-- Two or more children that were all encoded successfully are wrapped by `encodeAndOr`. -/
theorem encodeAndOr_of_two_le (likeToRegexp : String → Option LokiRawQuery) (op : String)
    (associations : List QueryAssociation) (conditions : List Clause)
    (queries : List LokiRawQuery)
    (h : encodeConditions likeToRegexp associations conditions = .ok queries)
    (hlen : 2 ≤ queries.length) :
    encodeAndOr likeToRegexp op associations conditions = .ok (obj [(op, arr queries)]) := by
  rw [encodeAndOr_eq, h]
  match queries, hlen with
  | _ :: _ :: _, _ => rfl

/-- C3: a `Where` whose right operand is a column reference is encoded, without error, to
the fixed `hackAlwaysTrueCondition`, whatever the left column, the operator and the referenced
column; the same holds for such a clause at any position of a condition list, at the root,
as the only child of `And`/`Or`, and inside `On`. -/
theorem where_column_is_always_true (likeToRegexp : String → Option LokiRawQuery)
    (associations : List QueryAssociation) (left : String) (operator : Operator)
    (column : String) :
    encodeCondition likeToRegexp associations (.where_ left ⟨operator, .column column⟩)
        = .ok hackAlwaysTrueCondition
    ∧ hackAlwaysTrueCondition = obj [("_fakeAlwaysTrue", obj [("$eq", undefined)])]
    ∧ (∀ pre post : List Clause,
        encodeConditions likeToRegexp associations
            (pre ++ .where_ left ⟨operator, .column column⟩ :: post)
          = (do
              let encodedPre ← encodeConditions likeToRegexp associations pre
              let encodedPost ← encodeConditions likeToRegexp associations post
              pure (encodedPre ++ hackAlwaysTrueCondition :: encodedPost)))
    ∧ encodeRootConditions likeToRegexp associations [.where_ left ⟨operator, .column column⟩]
        = .ok hackAlwaysTrueCondition
    ∧ encodeCondition likeToRegexp associations (.and [.where_ left ⟨operator, .column column⟩])
        = .ok hackAlwaysTrueCondition
    ∧ encodeCondition likeToRegexp associations (.or [.where_ left ⟨operator, .column column⟩])
        = .ok hackAlwaysTrueCondition
    ∧ (∀ table : String,
        encodeCondition likeToRegexp associations
            (.on table [.where_ left ⟨operator, .column column⟩])
          = (match associations.find? (fun association => table == association.«to») with
            | none => .error .missingAssociation
            | some association => .ok (obj [("$join", obj [
                ("table", str table),
                ("query", hackAlwaysTrueCondition),
                ("originalConditions", clauses [.where_ left ⟨operator, .column column⟩]),
                ("mapKey", str (encodeMapKey association.info)),
                ("joinKey", str (encodeJoinKey association.info))])]))) := by
  have hwhere : encodeCondition likeToRegexp associations
      (.where_ left ⟨operator, .column column⟩) = .ok hackAlwaysTrueCondition := by
    rw [encodeCondition_where]
    simp [encodeWhereDescription, ComparisonRight.hasColumn, pure, Except.pure]
  have hroot : encodeRootConditions likeToRegexp associations
      [.where_ left ⟨operator, .column column⟩] = .ok hackAlwaysTrueCondition := by
    rw [encodeRootConditions_singleton, hwhere]
  refine ⟨hwhere, rfl, ?_, hroot, ?_, ?_, ?_⟩
  · intro pre post
    rw [encodeConditions_append, encodeConditions_cons, hwhere]
    cases encodeConditions likeToRegexp associations pre with
    | error e => rfl
    | ok qs => cases encodeConditions likeToRegexp associations post <;> rfl
  · rw [encodeCondition_and, encodeAndOr_singleton, hwhere]
  · rw [encodeCondition_or, encodeAndOr_singleton, hwhere]
  · intro table
    rw [encodeCondition_on, encodeJoin_eq, hroot]
    cases associations.find? (fun association => table == association.«to») <;> rfl

/-- C4: `And` and `Or` with exactly one child are encoded exactly as the child is, both
when the child is encoded successfully (no `$and`/`$or` wrapper) and when it fails. -/
theorem and_or_single_child_unwrapped (likeToRegexp : String → Option LokiRawQuery)
    (associations : List QueryAssociation) (c : Clause) :
    encodeCondition likeToRegexp associations (.and [c])
        = encodeCondition likeToRegexp associations c
    ∧ encodeCondition likeToRegexp associations (.or [c])
        = encodeCondition likeToRegexp associations c := by
  constructor
  · rw [encodeCondition_and, encodeAndOr_singleton]
  · rw [encodeCondition_or, encodeAndOr_singleton]

/-- C5: with no root condition, no sort and no take, `encodeQuery` returns a query whose
`query` field is `undefined`, which is neither the empty object nor an empty `$and`. -/
theorem encodeQuery_no_conditions_undefined (likeToRegexp : String → Option LokiRawQuery)
    (table : String) (joinTables : List String) (associations : List QueryAssociation) :
    encodeQuery likeToRegexp
        { table := table,
          description := { «where» := [], joinTables := joinTables, sortBy := [], take := none },
          associations := associations }
      = .ok { table := table, query := undefined,
              hasJoins := decide (joinTables.length ≠ 0) }
    ∧ undefined ≠ obj []
    ∧ undefined ≠ obj [("$and", arr [])] := by
  refine ⟨?_, by simp, by simp⟩
  simp [encodeQuery, encodeRootConditions_eq, encodeConditions_nil, concatRawQueries,
    bind, Except.bind, pure, Except.pure]

/-- C6: when the root conditions `cs` are encoded successfully to `ps` (clause by clause, in
order), `ps` has the length of `cs`; for one condition the root query is that condition's
query; for two or more it is `{$and: ps}`. -/
theorem root_conditions_single_or_and (likeToRegexp : String → Option LokiRawQuery)
    (associations : List QueryAssociation) (cs : List Clause) (ps : List LokiRawQuery)
    (h : List.Forall₂ (fun clause query =>
      encodeCondition likeToRegexp associations clause = .ok query) cs ps) :
    ps.length = cs.length
    ∧ (cs.length = 1 → ∃ c p, cs = [c] ∧ ps = [p]
        ∧ encodeCondition likeToRegexp associations c = .ok p
        ∧ encodeRootConditions likeToRegexp associations cs = .ok p)
    ∧ (2 ≤ cs.length →
        encodeRootConditions likeToRegexp associations cs = .ok (obj [("$and", arr ps)])) := by
  have hlen : cs.length = ps.length := h.length_eq
  have henc := (encodeConditions_eq_ok_iff likeToRegexp associations cs ps).2 h
  refine ⟨hlen.symm, ?_, ?_⟩
  · intro h1
    match cs, ps, h, h1 with
    | [c], [p], h, _ =>
      cases h with
      | cons hc _ =>
        exact ⟨c, p, rfl, rfl, hc, by rw [encodeRootConditions_singleton, hc]⟩
  · intro h2
    rw [encodeRootConditions_of_ok likeToRegexp associations cs ps henc,
      concatRawQueries_of_two_le ps (hlen ▸ h2)]

/-- Witness for C6 at the root list `[Where(a, eq, 1), Where(b, eq, 2)]`. -/
theorem root_conditions_single_or_and_witness :
    encodeRootConditions (fun s => some (str s)) []
        [.where_ "a" ⟨.eq, .value (.num 1)⟩, .where_ "b" ⟨.eq, .value (.num 2)⟩]
      = .ok (obj [("$and", arr [obj [("a", obj [("$aeq", num 1)])],
                                 obj [("b", obj [("$aeq", num 2)])]])]) :=
  (root_conditions_single_or_and (fun s => some (str s)) []
    [.where_ "a" ⟨.eq, .value (.num 1)⟩, .where_ "b" ⟨.eq, .value (.num 2)⟩]
    [obj [("a", obj [("$aeq", num 1)])], obj [("b", obj [("$aeq", num 2)])]]
    (List.Forall₂.cons
      (by rw [encodeCondition_where]; rfl)
      (List.Forall₂.cons (by rw [encodeCondition_where]; rfl) List.Forall₂.nil))).2.2
    (by decide)

/-- C7: when the children `cs` of an `And` (an `Or`) are two or more and are encoded
successfully to `ps` (child by child, in order), the clause is encoded to `{$and: ps}`
(`{$or: ps}`), `ps` having the length of `cs`. A nested combinator is one child with one
query of its own, so nothing is merged or reordered. -/
theorem and_or_wrap_children_in_order (likeToRegexp : String → Option LokiRawQuery)
    (associations : List QueryAssociation) (cs : List Clause) (ps : List LokiRawQuery)
    (h : List.Forall₂ (fun clause query =>
      encodeCondition likeToRegexp associations clause = .ok query) cs ps)
    (h2 : 2 ≤ cs.length) :
    ps.length = cs.length
    ∧ encodeCondition likeToRegexp associations (.and cs) = .ok (obj [("$and", arr ps)])
    ∧ encodeCondition likeToRegexp associations (.or cs) = .ok (obj [("$or", arr ps)]) := by
  have hlen : cs.length = ps.length := h.length_eq
  have henc := (encodeConditions_eq_ok_iff likeToRegexp associations cs ps).2 h
  refine ⟨hlen.symm, ?_, ?_⟩
  · rw [encodeCondition_and,
      encodeAndOr_of_two_le likeToRegexp "$and" associations cs ps henc (hlen ▸ h2)]
  · rw [encodeCondition_or,
      encodeAndOr_of_two_le likeToRegexp "$or" associations cs ps henc (hlen ▸ h2)]

/-- Witness for C7 at `And([And([a = 1, b = 2]), Or([c = 3, d = 4])])`: the nested
combinators stay nested, in the order of the children. -/
theorem and_or_wrap_children_in_order_witness :
    encodeCondition (fun s => some (str s)) []
        (.and [.and [.where_ "a" ⟨.eq, .value (.num 1)⟩, .where_ "b" ⟨.eq, .value (.num 2)⟩],
               .or [.where_ "c" ⟨.eq, .value (.num 3)⟩, .where_ "d" ⟨.eq, .value (.num 4)⟩]])
      = .ok (obj [("$and", arr [
          obj [("$and", arr [obj [("a", obj [("$aeq", num 1)])],
                             obj [("b", obj [("$aeq", num 2)])]])],
          obj [("$or", arr [obj [("c", obj [("$aeq", num 3)])],
                            obj [("d", obj [("$aeq", num 4)])]])]])]) :=
  (and_or_wrap_children_in_order (fun s => some (str s)) [] _ _
    (List.Forall₂.cons
      (and_or_wrap_children_in_order (fun s => some (str s)) [] _ _
        (List.Forall₂.cons (by rw [encodeCondition_where]; rfl)
          (List.Forall₂.cons (by rw [encodeCondition_where]; rfl) List.Forall₂.nil))
        (by decide)).2.1
      (List.Forall₂.cons
        (and_or_wrap_children_in_order (fun s => some (str s)) [] _ _
          (List.Forall₂.cons (by rw [encodeCondition_where]; rfl)
            (List.Forall₂.cons (by rw [encodeCondition_where]; rfl) List.Forall₂.nil))
          (by decide)).2.2
        List.Forall₂.nil))
    (by decide)).2.1

/-! Section: Joins -/

/-- C8: for a `belongs_to` association `mapKey` is `"id"` and `joinKey` is the association's
`key`; for the other kind (`has_many`) `mapKey` is the association's `foreignKey` and
`joinKey` is `"id"`. -/
theorem mapKey_joinKey_by_relation_kind (foreignKey key : String) :
    encodeMapKey ⟨.belongs_to, foreignKey, key⟩ = "id"
    ∧ encodeJoinKey ⟨.belongs_to, foreignKey, key⟩ = key
    ∧ encodeMapKey ⟨.has_many, foreignKey, key⟩ = foreignKey
    ∧ encodeJoinKey ⟨.has_many, foreignKey, key⟩ = "id" := by
  simp [encodeMapKey, encodeJoinKey]

/-- An `On` clause whose table has the association `association` (the first one whose `to`
is the table) and whose conditions are encoded by the root encoder to `query`. -/
theorem encodeCondition_on_of_find (likeToRegexp : String → Option LokiRawQuery)
    (associations : List QueryAssociation) (table : String) (conditions : List Clause)
    (association : QueryAssociation) (query : LokiRawQuery)
    (hfind : associations.find? (fun association => table == association.«to»)
      = some association)
    (hroot : encodeRootConditions likeToRegexp associations conditions = .ok query) :
    encodeCondition likeToRegexp associations (.on table conditions)
      = .ok (obj [("$join", obj [
          ("table", str table),
          ("query", query),
          ("originalConditions", clauses conditions),
          ("mapKey", str (encodeMapKey association.info)),
          ("joinKey", str (encodeJoinKey association.info))])]) := by
  rw [encodeCondition_on, encodeJoin_eq, hfind, hroot]
  rfl

/-- C9 as stated fails: with `belongs_to {foreignKey: "author_id", key: "id"}` for table
`posts`, `On("posts", [Where(author_id, eq, ColumnRef(id))])` is encoded to a join whose
`joinKey` is `"id"` (the association's `key`), not `"author_id"`. -/
theorem belongsTo_joinKey_counterexample :
    encodeCondition (fun s => some (str s))
        [⟨"posts", ⟨.belongs_to, "author_id", "id"⟩⟩]
        (.on "posts" [.where_ "author_id" ⟨.eq, .column "id"⟩])
      = .ok (obj [("$join", obj [
          ("table", str "posts"),
          ("query", hackAlwaysTrueCondition),
          ("originalConditions", clauses [.where_ "author_id" ⟨.eq, .column "id"⟩]),
          ("mapKey", str "id"),
          ("joinKey", str "id")])])
    ∧ ¬ ∃ query originalConditions,
        encodeCondition (fun s => some (str s))
            [⟨"posts", ⟨.belongs_to, "author_id", "id"⟩⟩]
            (.on "posts" [.where_ "author_id" ⟨.eq, .column "id"⟩])
          = .ok (obj [("$join", obj [
              ("table", str "posts"),
              ("query", query),
              ("originalConditions", originalConditions),
              ("mapKey", str "id"),
              ("joinKey", str "author_id")])]) := by
  have hroot : encodeRootConditions (fun s => some (str s))
      [⟨"posts", ⟨.belongs_to, "author_id", "id"⟩⟩]
      [.where_ "author_id" ⟨.eq, .column "id"⟩] = .ok hackAlwaysTrueCondition := by
    rw [encodeRootConditions_singleton, encodeCondition_where]
    rfl
  have henc := encodeCondition_on_of_find (fun s => some (str s))
    [⟨"posts", ⟨.belongs_to, "author_id", "id"⟩⟩] "posts"
    [.where_ "author_id" ⟨.eq, .column "id"⟩]
    ⟨"posts", ⟨.belongs_to, "author_id", "id"⟩⟩ hackAlwaysTrueCondition (by decide) hroot
  refine ⟨henc, ?_⟩
  rintro ⟨query, originalConditions, h⟩
  rw [henc] at h
  simp [encodeJoinKey] at h

/-- C9, amended: when the association found for the table of an `On` clause is
`belongs_to {foreignKey: "author_id", key: "id"}` and the conditions are encoded by the root
encoder to `query`, the join has `mapKey = "id"` and `joinKey = "id"`. -/
theorem belongsTo_author_join_keys (likeToRegexp : String → Option LokiRawQuery)
    (associations : List QueryAssociation) (table : String) (conditions : List Clause)
    (query : LokiRawQuery)
    (hfind : associations.find? (fun association => table == association.«to»)
      = some ⟨table, ⟨.belongs_to, "author_id", "id"⟩⟩)
    (hroot : encodeRootConditions likeToRegexp associations conditions = .ok query) :
    encodeCondition likeToRegexp associations (.on table conditions)
      = .ok (obj [("$join", obj [
          ("table", str table),
          ("query", query),
          ("originalConditions", clauses conditions),
          ("mapKey", str "id"),
          ("joinKey", str "id")])]) := by
  rw [encodeCondition_on_of_find likeToRegexp associations table conditions _ query hfind hroot]
  rfl

/-- Witness for the amended C9 at `On("authors", [])`. -/
theorem belongsTo_author_join_keys_witness :
    encodeCondition (fun s => some (str s))
        [⟨"authors", ⟨.belongs_to, "author_id", "id"⟩⟩] (.on "authors" [])
      = .ok (obj [("$join", obj [
          ("table", str "authors"),
          ("query", undefined),
          ("originalConditions", clauses []),
          ("mapKey", str "id"),
          ("joinKey", str "id")])]) :=
  belongsTo_author_join_keys (fun s => some (str s))
    [⟨"authors", ⟨.belongs_to, "author_id", "id"⟩⟩] "authors" [] undefined
    (by decide)
    (by rw [encodeRootConditions_eq, encodeConditions_nil]; rfl)

/-- C10: when the table of `On{table, conditions}` has an association and the conditions are
encoded successfully to `ps` (clause by clause, in order), the clause is encoded to a join
with the same `table`, `originalConditions` the input conditions themselves, and `query` the
root encoder's result on the conditions: `undefined` for none, the single query for one,
`{$and: ps}` for more. -/
theorem on_join_descriptor (likeToRegexp : String → Option LokiRawQuery)
    (associations : List QueryAssociation) (table : String) (conditions : List Clause)
    (association : QueryAssociation) (ps : List LokiRawQuery)
    (hfind : associations.find? (fun association => table == association.«to»)
      = some association)
    (h : List.Forall₂ (fun clause query =>
      encodeCondition likeToRegexp associations clause = .ok query) conditions ps) :
    encodeRootConditions likeToRegexp associations conditions = .ok (concatRawQueries ps)
    ∧ encodeCondition likeToRegexp associations (.on table conditions)
      = .ok (obj [("$join", obj [
          ("table", str table),
          ("query", concatRawQueries ps),
          ("originalConditions", clauses conditions),
          ("mapKey", str (encodeMapKey association.info)),
          ("joinKey", str (encodeJoinKey association.info))])])
    ∧ (ps = [] → concatRawQueries ps = undefined)
    ∧ (∀ p, ps = [p] → concatRawQueries ps = p)
    ∧ (2 ≤ ps.length → concatRawQueries ps = obj [("$and", arr ps)]) := by
  have henc := (encodeConditions_eq_ok_iff likeToRegexp associations conditions ps).2 h
  have hroot := encodeRootConditions_of_ok likeToRegexp associations conditions ps henc
  refine ⟨hroot, ?_, ?_, ?_, concatRawQueries_of_two_le ps⟩
  · exact encodeCondition_on_of_find likeToRegexp associations table conditions association
      (concatRawQueries ps) hfind hroot
  · intro hnil; subst hnil; rfl
  · intro p hp; subst hp; rfl

/-- Witness for C10 at `On("posts", [Where(author_id, eq, ColumnRef(id)), Where(n, gt, 5)])`
with a `has_many` association: the column comparison is kept in `originalConditions`. -/
theorem on_join_descriptor_witness :
    encodeCondition (fun s => some (str s))
        [⟨"posts", ⟨.has_many, "author_id", "id"⟩⟩]
        (.on "posts" [.where_ "author_id" ⟨.eq, .column "id"⟩,
                      .where_ "n" ⟨.gt, .value (.num 5)⟩])
      = .ok (obj [("$join", obj [
          ("table", str "posts"),
          ("query", obj [("$and", arr [hackAlwaysTrueCondition,
                                       obj [("n", obj [("$gt", num 5)])]])]),
          ("originalConditions", clauses [.where_ "author_id" ⟨.eq, .column "id"⟩,
                                          .where_ "n" ⟨.gt, .value (.num 5)⟩]),
          ("mapKey", str "author_id"),
          ("joinKey", str "id")])]) :=
  (on_join_descriptor (fun s => some (str s))
    [⟨"posts", ⟨.has_many, "author_id", "id"⟩⟩] "posts"
    [.where_ "author_id" ⟨.eq, .column "id"⟩, .where_ "n" ⟨.gt, .value (.num 5)⟩]
    ⟨"posts", ⟨.has_many, "author_id", "id"⟩⟩
    [hackAlwaysTrueCondition, obj [("n", obj [("$gt", num 5)])]]
    (by decide)
    (List.Forall₂.cons (by rw [encodeCondition_where]; rfl)
      (List.Forall₂.cons (by rw [encodeCondition_where]; rfl) List.Forall₂.nil))).2.1

/-! Section: Induction over clause trees -/

/-- Induction over a clause tree together with its lists of children. -/
theorem Clause.induction {P : Clause → Prop} {Q : List Clause → Prop}
    (hwhere : ∀ left comparison, P (.where_ left comparison))
    (hand : ∀ conditions, Q conditions → P (.and conditions))
    (hor : ∀ conditions, Q conditions → P (.or conditions))
    (hon : ∀ table conditions, Q conditions → P (.on table conditions))
    (hloki : ∀ expr, P (.loki expr))
    (hnil : Q [])
    (hcons : ∀ clause rest, P clause → Q rest → Q (clause :: rest))
    (clause : Clause) : P clause :=
  @Clause.rec P (fun _ => True) Q (fun _ => True) (fun _ => True) (fun _ => True)
    hwhere hand hor hon (fun expr _ => hloki expr)
    trivial trivial (fun _ => trivial) (fun _ => trivial) (fun _ => trivial)
    (fun _ _ => trivial) (fun _ _ => trivial) (fun _ _ => trivial)
    hnil hcons
    trivial (fun _ _ _ _ => trivial) trivial (fun _ _ _ _ => trivial) (fun _ _ _ => trivial)
    clause

/-! Section: Success and failure of the encoder -/

/-- No table to resolve: all declared. -/
theorem allDeclared_nil (associations : List QueryAssociation) : allDeclared associations [] := by
  intro table h
  cases h

/-- Tables of a non-empty list are declared when the first and the others are. -/
theorem allDeclared_cons (associations : List QueryAssociation) (table : String)
    (tables : List String) :
    allDeclared associations (table :: tables)
      ↔ (∃ association ∈ associations, association.«to» = table)
        ∧ allDeclared associations tables := by
  unfold allDeclared
  exact List.forall_mem_cons

/-- Tables of a concatenation are declared when those of both parts are. -/
theorem allDeclared_append (associations : List QueryAssociation) (xs ys : List String) :
    allDeclared associations (xs ++ ys)
      ↔ allDeclared associations xs ∧ allDeclared associations ys := by
  unfold allDeclared
  exact List.forall_mem_append

/-- The lookup `associations.find(({ to }) => table === to)` finds nothing exactly when no
association has the table as its `to`. -/
theorem find_association_eq_none (associations : List QueryAssociation) (table : String) :
    associations.find? (fun association => table == association.«to») = none
      ↔ ¬ ∃ association ∈ associations, association.«to» = table := by
  rw [List.find?_eq_none]
  constructor
  · rintro h ⟨association, hmem, hto⟩
    exact h association hmem (by simp [hto])
  · intro h association hmem hto
    exact h ⟨association, hmem, by simpa using Eq.symm (by simpa using hto)⟩

/-- What the lookup finds is an association of the list whose `to` is the table. -/
theorem find_association_eq_some (associations : List QueryAssociation) (table : String)
    (association : QueryAssociation)
    (h : associations.find? (fun association => table == association.«to») = some association) :
    association ∈ associations ∧ association.«to» = table := by
  refine ⟨List.mem_of_find?_eq_some h, ?_⟩
  have hp := List.find?_some h
  exact Eq.symm (by simpa using hp)

/-- No pattern to translate: all accepted. -/
theorem allAccepted_nil (likeToRegexp : String → Option LokiRawQuery) :
    allAccepted likeToRegexp [] := by
  intro pattern h
  cases h

/-- Patterns of a concatenation are accepted when those of both parts are. -/
theorem allAccepted_append (likeToRegexp : String → Option LokiRawQuery)
    (xs ys : List String) :
    allAccepted likeToRegexp (xs ++ ys)
      ↔ allAccepted likeToRegexp xs ∧ allAccepted likeToRegexp ys := by
  unfold allAccepted
  exact List.forall_mem_append

/-- A single pattern is accepted when `likeToRegexp` returns a regular expression for it. -/
theorem allAccepted_singleton (likeToRegexp : String → Option LokiRawQuery) (s : String) :
    allAccepted likeToRegexp [s] ↔ ∃ regexp, likeToRegexp s = some regexp := by
  unfold allAccepted
  simp

/-- A value is an outcome when both conditions hold. -/
theorem Outcome.of_ok {α : Type} {declared accepted : Prop} (value : α)
    (hdeclared : declared) (haccepted : accepted) :
    Outcome declared accepted (Except.ok value : Except EncodeError α) :=
  ⟨hdeclared, haccepted⟩

/-- An outcome under equivalent conditions. -/
theorem Outcome.congr {α : Type} {declared accepted declared2 accepted2 : Prop}
    (result : Except EncodeError α) (hd : declared ↔ declared2) (ha : accepted ↔ accepted2)
    (h : Outcome declared accepted result) : Outcome declared2 accepted2 result := by
  cases result with
  | ok value => exact ⟨hd.1 h.1, ha.1 h.2⟩
  | error e =>
    rcases h with ⟨he, hn⟩ | ⟨he, hn⟩
    · exact Or.inl ⟨he, fun hc => hn (hd.2 hc)⟩
    · exact Or.inr ⟨he, fun hc => hn (ha.2 hc)⟩

/-- Sequencing two steps: both conditions of both steps are needed. -/
theorem Outcome.bind {α β : Type} {declared accepted declared2 accepted2 : Prop}
    (result : Except EncodeError α) (next : α → Except EncodeError β)
    (hresult : Outcome declared accepted result)
    (hnext : ∀ value, Outcome declared2 accepted2 (next value)) :
    Outcome (declared ∧ declared2) (accepted ∧ accepted2) (result >>= next) := by
  cases result with
  | error e =>
    rcases hresult with ⟨he, hn⟩ | ⟨he, hn⟩
    · exact Or.inl ⟨he, fun hc => hn hc.1⟩
    · exact Or.inr ⟨he, fun hc => hn hc.1⟩
  | ok value =>
    have hv := hnext value
    show Outcome _ _ (next value)
    cases hnv : next value with
    | ok value2 =>
      rw [hnv] at hv
      exact ⟨⟨hresult.1, hv.1⟩, ⟨hresult.2, hv.2⟩⟩
    | error e =>
      rw [hnv] at hv
      rcases hv with ⟨he, hn⟩ | ⟨he, hn⟩
      · exact Or.inl ⟨he, fun hc => hn hc.2⟩
      · exact Or.inr ⟨he, fun hc => hn hc.2⟩

/-- Following a step by one that cannot fail does not change the conditions. -/
theorem Outcome.map {α β : Type} {declared accepted : Prop}
    (result : Except EncodeError α) (next : α → Except EncodeError β)
    (hresult : Outcome declared accepted result)
    (hnext : ∀ value, ∃ value2, next value = .ok value2) :
    Outcome declared accepted (result >>= next) := by
  cases result with
  | error e => exact hresult
  | ok value =>
    obtain ⟨value2, hvalue2⟩ := hnext value
    show Outcome _ _ (next value)
    rw [hvalue2]
    exact hresult

/-- A result with an outcome is a value exactly when both conditions hold. -/
theorem Outcome.ok_iff {α : Type} {declared accepted : Prop} (result : Except EncodeError α)
    (h : Outcome declared accepted result) :
    (∃ value, result = .ok value) ↔ declared ∧ accepted := by
  cases result with
  | ok value => exact ⟨fun _ => h, fun _ => ⟨value, rfl⟩⟩
  | error e =>
    constructor
    · rintro ⟨value, hvalue⟩
      cases hvalue
    · intro hboth
      rcases h with ⟨_, hn⟩ | ⟨_, hn⟩
      · exact absurd hboth.1 hn
      · exact absurd hboth.2 hn

/-- The only failures of a result with an outcome. -/
theorem Outcome.error_cases {α : Type} {declared accepted : Prop}
    (result : Except EncodeError α) (e : EncodeError)
    (h : Outcome declared accepted result) (herror : result = .error e) :
    (e = .missingAssociation ∧ ¬ declared) ∨ (e = .likeToRegexpThrew ∧ ¬ accepted) := by
  subst herror
  exact h

/-- With all patterns accepted, a violated `declared` gives the missing-association failure. -/
theorem Outcome.missing_of_accepted {α : Type} {declared accepted : Prop}
    (result : Except EncodeError α) (h : Outcome declared accepted result)
    (haccepted : accepted) (hnot : ¬ declared) :
    result = .error .missingAssociation := by
  cases result with
  | ok value => exact absurd h.1 hnot
  | error e =>
    rcases h with ⟨he, _⟩ | ⟨_, hn⟩
    · rw [he]
    · exact absurd haccepted hn

/-- Operators other than `like` and `notLike` always return a value. -/
theorem operators_ok_of_ne_like (likeToRegexp : String → Option LokiRawQuery)
    (operator : Operator) (v : CompoundValue)
    (h1 : operator ≠ .like) (h2 : operator ≠ .notLike) :
    ∃ query, operators likeToRegexp operator v = .ok query := by
  cases operator <;> first
    | exact ⟨_, rfl⟩
    | exact absurd rfl h1
    | exact absurd rfl h2

/-- A comparison with an operator other than `like` and `notLike`, on an operand that is not
a column reference, is always encoded. -/
theorem encodeComparison_ok_of_ne_like (likeToRegexp : String → Option LokiRawQuery)
    (operator : Operator) (right : ComparisonRight) (v : CompoundValue)
    (hright : getComparisonRight right = .ok v)
    (h1 : operator ≠ .like) (h2 : operator ≠ .notLike) :
    ∃ query, encodeComparison likeToRegexp ⟨operator, right⟩ = .ok query := by
  simp only [encodeComparison, hright, bind, Except.bind]
  cases v.asString with
  | none => exact operators_ok_of_ne_like likeToRegexp operator v h1 h2
  | some s =>
    by_cases he : operator = .eq
    · exact ⟨obj [("$eq", str s)], by simp [he, pure, Except.pure]⟩
    · by_cases hn : operator = .notEq
      · exact ⟨obj [("$ne", str s)], by simp [hn, pure, Except.pure]⟩
      · obtain ⟨query, hquery⟩ := operators_ok_of_ne_like likeToRegexp operator v h1 h2
        exact ⟨query, by simp [he, hn, hquery]⟩

/-- A `Where` clause with an operator other than `like` and `notLike` is always encoded. -/
theorem encodeWhereDescription_ok_of_ne_like (likeToRegexp : String → Option LokiRawQuery)
    (left : String) (operator : Operator) (right : ComparisonRight)
    (h1 : operator ≠ .like) (h2 : operator ≠ .notLike) :
    ∃ query, encodeWhereDescription likeToRegexp left ⟨operator, right⟩ = .ok query := by
  cases right with
  | column column => exact ⟨hackAlwaysTrueCondition, rfl⟩
  | value value =>
    obtain ⟨q, hq⟩ :=
      encodeComparison_ok_of_ne_like likeToRegexp operator (.value value) _ rfl h1 h2
    exact ⟨objOf left q, by
      simp [encodeWhereDescription, ComparisonRight.hasColumn, hq, bind, Except.bind,
        pure, Except.pure]⟩
  | values values =>
    obtain ⟨q, hq⟩ :=
      encodeComparison_ok_of_ne_like likeToRegexp operator (.values values) _ rfl h1 h2
    exact ⟨objOf left q, by
      simp [encodeWhereDescription, ComparisonRight.hasColumn, hq, bind, Except.bind,
        pure, Except.pure]⟩

/-- A `Where` clause with `like` or `notLike` whose operand is not a string is always
encoded. -/
theorem encodeWhereDescription_ok_of_not_string (likeToRegexp : String → Option LokiRawQuery)
    (left : String) (operator : Operator) (right : ComparisonRight)
    (hop : operator = .like ∨ operator = .notLike)
    (hright : ∀ s, right ≠ .value (.str s)) :
    ∃ query, encodeWhereDescription likeToRegexp left ⟨operator, right⟩ = .ok query := by
  cases right with
  | column column => exact ⟨hackAlwaysTrueCondition, rfl⟩
  | values values => rcases hop with rfl | rfl <;> exact ⟨_, rfl⟩
  | value value =>
    cases value with
    | str s => exact absurd rfl (hright s)
    | null => rcases hop with rfl | rfl <;> exact ⟨_, rfl⟩
    | bool b => rcases hop with rfl | rfl <;> exact ⟨_, rfl⟩
    | num n => rcases hop with rfl | rfl <;> exact ⟨_, rfl⟩

/-- A `Where` clause with `like` or `notLike` on a string is encoded when `likeToRegexp`
accepts the string. -/
theorem encodeWhereDescription_pattern_ok (likeToRegexp : String → Option LokiRawQuery)
    (left : String) (operator : Operator) (s : String) (regexp : LokiRawQuery)
    (hop : operator = .like ∨ operator = .notLike)
    (hregexp : likeToRegexp s = some regexp) :
    ∃ query,
      encodeWhereDescription likeToRegexp left ⟨operator, .value (.str s)⟩ = .ok query := by
  rcases hop with rfl | rfl
  · exact ⟨obj [(left, obj [("$regex", regexp)])], by
      rw [encodeWhere_operators likeToRegexp left _ (.value (.str s)) (.single (.str s)) rfl
        (Or.inr ⟨by decide, by decide⟩)]
      simp [operators, like, CompoundValue.asString, hregexp, bind, Except.bind, pure,
        Except.pure]⟩
  · exact ⟨obj [(left, obj [("$and", arr [obj [("$not", obj [("$eq", LokiRawQuery.null)])],
        obj [("$not", obj [("$regex", regexp)])]])])], by
      rw [encodeWhere_operators likeToRegexp left _ (.value (.str s)) (.single (.str s)) rfl
        (Or.inr ⟨by decide, by decide⟩)]
      simp [operators, notLike, CompoundValue.asString, hregexp, bind, Except.bind, pure,
        Except.pure]⟩

/-- A `Where` clause with `like` or `notLike` on a string fails with the failure of
`likeToRegexp` when `likeToRegexp` rejects the string. -/
theorem encodeWhereDescription_pattern_error (likeToRegexp : String → Option LokiRawQuery)
    (left : String) (operator : Operator) (s : String)
    (hop : operator = .like ∨ operator = .notLike)
    (hregexp : likeToRegexp s = none) :
    encodeWhereDescription likeToRegexp left ⟨operator, .value (.str s)⟩
      = .error .likeToRegexpThrew := by
  rcases hop with rfl | rfl
  · rw [encodeWhere_operators likeToRegexp left _ (.value (.str s)) (.single (.str s)) rfl
        (Or.inr ⟨by decide, by decide⟩)]
    simp [operators, like, CompoundValue.asString, hregexp, bind, Except.bind]
  · rw [encodeWhere_operators likeToRegexp left _ (.value (.str s)) (.single (.str s)) rfl
        (Or.inr ⟨by decide, by decide⟩)]
    simp [operators, notLike, CompoundValue.asString, hregexp, bind, Except.bind]

/-- The outcome of a `Where` clause: nothing to resolve, the patterns of its comparison to
translate. -/
theorem encodeWhereDescription_outcome (likeToRegexp : String → Option LokiRawQuery)
    (declared : Prop) (hdeclared : declared) (left : String) (comparison : Comparison) :
    Outcome declared (allAccepted likeToRegexp comparison.patterns)
      (encodeWhereDescription likeToRegexp left comparison) := by
  obtain ⟨operator, right⟩ := comparison
  by_cases hop : operator = .like ∨ operator = .notLike
  · by_cases hstr : ∃ s, right = .value (.str s)
    · obtain ⟨s, rfl⟩ := hstr
      have hpat : Comparison.patterns ⟨operator, .value (.str s)⟩ = [s] := by
        simp [Comparison.patterns, hop]
      rw [hpat]
      cases hregexp : likeToRegexp s with
      | none =>
        rw [encodeWhereDescription_pattern_error likeToRegexp left operator s hop hregexp]
        refine Or.inr ⟨rfl, ?_⟩
        rw [allAccepted_singleton, hregexp]
        rintro ⟨regexp, h⟩
        cases h
      | some regexp =>
        obtain ⟨query, hquery⟩ :=
          encodeWhereDescription_pattern_ok likeToRegexp left operator s regexp hop hregexp
        rw [hquery]
        exact Outcome.of_ok query hdeclared
          ((allAccepted_singleton likeToRegexp s).2 ⟨regexp, hregexp⟩)
    · have hright : ∀ s, right ≠ .value (.str s) := fun s h => hstr ⟨s, h⟩
      have hpat : Comparison.patterns ⟨operator, right⟩ = [] := by
        cases right with
        | column column => simp [Comparison.patterns]
        | values values => simp [Comparison.patterns]
        | value value =>
          cases value with
          | str s => exact absurd rfl (hright s)
          | null => simp [Comparison.patterns]
          | bool b => simp [Comparison.patterns]
          | num n => simp [Comparison.patterns]
      obtain ⟨query, hquery⟩ :=
        encodeWhereDescription_ok_of_not_string likeToRegexp left operator right hop hright
      rw [hpat, hquery]
      exact Outcome.of_ok query hdeclared (allAccepted_nil likeToRegexp)
  · have hpat : Comparison.patterns ⟨operator, right⟩ = [] := by
      simp [Comparison.patterns, hop]
    obtain ⟨query, hquery⟩ :=
      encodeWhereDescription_ok_of_ne_like likeToRegexp left operator right
        (fun h => hop (Or.inl h)) (fun h => hop (Or.inr h))
    rw [hpat, hquery]
    exact Outcome.of_ok query hdeclared (allAccepted_nil likeToRegexp)

/-- The outcome of `encodeAndOr` is that of its children. -/
theorem outcome_andOr (likeToRegexp : String → Option LokiRawQuery) (op : String)
    (associations : List QueryAssociation) (conditions : List Clause)
    (h : Outcome (allDeclared associations (Clause.onTablesList conditions))
      (allAccepted likeToRegexp (Clause.patternsList conditions))
      (encodeConditions likeToRegexp associations conditions)) :
    Outcome (allDeclared associations (Clause.onTablesList conditions))
      (allAccepted likeToRegexp (Clause.patternsList conditions))
      (encodeAndOr likeToRegexp op associations conditions) := by
  rw [encodeAndOr_eq]
  refine Outcome.map _ _ h ?_
  intro encoded
  match encoded with
  | [] => exact ⟨_, rfl⟩
  | [_] => exact ⟨_, rfl⟩
  | _ :: _ :: _ => exact ⟨_, rfl⟩

/-- The outcome of the root encoder is that of its conditions. -/
theorem outcome_root (likeToRegexp : String → Option LokiRawQuery)
    (associations : List QueryAssociation) (conditions : List Clause)
    (h : Outcome (allDeclared associations (Clause.onTablesList conditions))
      (allAccepted likeToRegexp (Clause.patternsList conditions))
      (encodeConditions likeToRegexp associations conditions)) :
    Outcome (allDeclared associations (Clause.onTablesList conditions))
      (allAccepted likeToRegexp (Clause.patternsList conditions))
      (encodeRootConditions likeToRegexp associations conditions) := by
  rw [encodeRootConditions_eq]
  exact Outcome.map _ _ h (fun encoded => ⟨_, rfl⟩)

/-- The outcome of an `On` clause: its own table has to be declared, then its conditions
are encoded. -/
theorem outcome_on (likeToRegexp : String → Option LokiRawQuery)
    (associations : List QueryAssociation) (table : String) (conditions : List Clause)
    (h : Outcome (allDeclared associations (Clause.onTablesList conditions))
      (allAccepted likeToRegexp (Clause.patternsList conditions))
      (encodeConditions likeToRegexp associations conditions)) :
    Outcome (allDeclared associations (Clause.on table conditions).onTables)
      (allAccepted likeToRegexp (Clause.on table conditions).patterns)
      (encodeCondition likeToRegexp associations (.on table conditions)) := by
  have hroot := outcome_root likeToRegexp associations conditions h
  rw [encodeCondition_on, encodeJoin_eq]
  simp only [Clause.onTables, Clause.patterns]
  cases hfind : associations.find? (fun association => table == association.«to») with
  | none =>
    have hno := (find_association_eq_none associations table).1 hfind
    exact Or.inl ⟨rfl, fun hall => hno ((allDeclared_cons associations table _).1 hall).1⟩
  | some association =>
    have hsome := find_association_eq_some associations table association hfind
    have hmap := Outcome.map _
      (fun query => (Except.ok (obj [("$join", obj [
        ("table", str table),
        ("query", query),
        ("originalConditions", clauses conditions),
        ("mapKey", str (encodeMapKey association.info)),
        ("joinKey", str (encodeJoinKey association.info))])]) :
          Except EncodeError LokiRawQuery))
      hroot (fun query => ⟨_, rfl⟩)
    refine Outcome.congr _ ?_ Iff.rfl hmap
    rw [allDeclared_cons]
    exact ⟨fun hrest => ⟨⟨association, hsome⟩, hrest⟩, fun hall => hall.2⟩

/-- The outcome of a non-empty list: the first clause, then the rest. -/
theorem outcome_cons (likeToRegexp : String → Option LokiRawQuery)
    (associations : List QueryAssociation) (clause : Clause) (rest : List Clause)
    (hclause : Outcome (allDeclared associations clause.onTables)
      (allAccepted likeToRegexp clause.patterns)
      (encodeCondition likeToRegexp associations clause))
    (hrest : Outcome (allDeclared associations (Clause.onTablesList rest))
      (allAccepted likeToRegexp (Clause.patternsList rest))
      (encodeConditions likeToRegexp associations rest)) :
    Outcome (allDeclared associations (Clause.onTablesList (clause :: rest)))
      (allAccepted likeToRegexp (Clause.patternsList (clause :: rest)))
      (encodeConditions likeToRegexp associations (clause :: rest)) := by
  rw [encodeConditions_cons]
  simp only [Clause.onTablesList, Clause.patternsList]
  refine Outcome.congr _ (allDeclared_append associations _ _).symm
    (allAccepted_append likeToRegexp _ _).symm ?_
  refine Outcome.bind _ _ hclause ?_
  intro encoded
  exact Outcome.map _ _ hrest (fun encodedRest => ⟨_, rfl⟩)

/-- A clause tree is encoded to a value exactly when the tables of all its `On` clauses are
declared and all its `like`/`notLike` string patterns are accepted; its only failures are
the missing association and the failure of `likeToRegexp`. -/
theorem encodeCondition_outcome (likeToRegexp : String → Option LokiRawQuery)
    (associations : List QueryAssociation) (clause : Clause) :
    Outcome (allDeclared associations clause.onTables)
      (allAccepted likeToRegexp clause.patterns)
      (encodeCondition likeToRegexp associations clause) := by
  refine Clause.induction
    (P := fun clause => Outcome (allDeclared associations clause.onTables)
      (allAccepted likeToRegexp clause.patterns)
      (encodeCondition likeToRegexp associations clause))
    (Q := fun conditions => Outcome (allDeclared associations (Clause.onTablesList conditions))
      (allAccepted likeToRegexp (Clause.patternsList conditions))
      (encodeConditions likeToRegexp associations conditions))
    ?_ ?_ ?_ (outcome_on likeToRegexp associations) ?_ ?_
    (outcome_cons likeToRegexp associations) clause
  · intro left comparison
    show Outcome _ _ (encodeCondition likeToRegexp associations (.where_ left comparison))
    rw [encodeCondition_where]
    exact encodeWhereDescription_outcome likeToRegexp _ (allDeclared_nil associations)
      left comparison
  · intro conditions h
    show Outcome _ _ (encodeCondition likeToRegexp associations (.and conditions))
    rw [encodeCondition_and]
    exact outcome_andOr likeToRegexp "$and" associations conditions h
  · intro conditions h
    show Outcome _ _ (encodeCondition likeToRegexp associations (.or conditions))
    rw [encodeCondition_or]
    exact outcome_andOr likeToRegexp "$or" associations conditions h
  · intro expr
    show Outcome _ _ (encodeCondition likeToRegexp associations (.loki expr))
    rw [encodeCondition_loki]
    exact Outcome.of_ok expr (allDeclared_nil associations) (allAccepted_nil likeToRegexp)
  · show Outcome _ _ (encodeConditions likeToRegexp associations [])
    rw [encodeConditions_nil]
    exact Outcome.of_ok [] (allDeclared_nil associations) (allAccepted_nil likeToRegexp)

/-- A list of clause trees is encoded to a list of values exactly when the tables of all its
`On` clauses are declared and all its `like`/`notLike` string patterns are accepted. -/
theorem encodeConditions_outcome (likeToRegexp : String → Option LokiRawQuery)
    (associations : List QueryAssociation) (conditions : List Clause) :
    Outcome (allDeclared associations (Clause.onTablesList conditions))
      (allAccepted likeToRegexp (Clause.patternsList conditions))
      (encodeConditions likeToRegexp associations conditions) := by
  induction conditions with
  | nil =>
    rw [encodeConditions_nil]
    exact Outcome.of_ok [] (allDeclared_nil associations) (allAccepted_nil likeToRegexp)
  | cons clause rest ih =>
    exact outcome_cons likeToRegexp associations clause rest
      (encodeCondition_outcome likeToRegexp associations clause) ih

/-- The root encoder yields a value exactly when the tables of all `On` clauses of its
conditions are declared and all their `like`/`notLike` string patterns are accepted. -/
theorem encodeRootConditions_outcome (likeToRegexp : String → Option LokiRawQuery)
    (associations : List QueryAssociation) (conditions : List Clause) :
    Outcome (allDeclared associations (Clause.onTablesList conditions))
      (allAccepted likeToRegexp (Clause.patternsList conditions))
      (encodeRootConditions likeToRegexp associations conditions) :=
  outcome_root likeToRegexp associations conditions
    (encodeConditions_outcome likeToRegexp associations conditions)

/-! Section: The entry point -/

/-- A non-empty `sortBy` is rejected first. -/
theorem encodeQuery_of_sortBy (likeToRegexp : String → Option LokiRawQuery) (query : SerializedQuery)
    (hsort : query.description.sortBy ≠ []) :
    encodeQuery likeToRegexp query = .error .sortByNotSupported := by
  have hlen : query.description.sortBy.length ≠ 0 := fun h => hsort (List.length_eq_zero.1 h)
  simp [encodeQuery, hlen]

/-- With an empty `sortBy`, a `take` other than `0` is rejected. -/
theorem encodeQuery_of_take (likeToRegexp : String → Option LokiRawQuery) (query : SerializedQuery)
    (hsort : query.description.sortBy = []) (n : Int)
    (htake : query.description.take = some n) (hn : n ≠ 0) :
    encodeQuery likeToRegexp query = .error .takeNotSupported := by
  simp [encodeQuery, hsort, htake, hn]

/-- With an empty `sortBy` and a `take` that is absent or `0`, the entry point is the root
encoder on the `where` list, wrapped with `table` and `hasJoins`. -/
theorem encodeQuery_of_supported (likeToRegexp : String → Option LokiRawQuery)
    (query : SerializedQuery) (hsort : query.description.sortBy = [])
    (htake : query.description.take = none ∨ query.description.take = some 0) :
    encodeQuery likeToRegexp query
      = (do
          let encoded ← encodeRootConditions likeToRegexp query.associations
            query.description.«where»
          pure { table := query.table, query := encoded,
                 hasJoins := decide (query.description.joinTables.length ≠ 0) }) := by
  rcases htake with htake | htake <;> simp [encodeQuery, hsort, htake]

/-- With an empty `sortBy` and a `take` that is absent or `0`, the entry point returns a
query exactly when the tables of all `On` clauses of the `where` list are declared and all
its `like`/`notLike` string patterns are accepted. -/
theorem encodeQuery_outcome (likeToRegexp : String → Option LokiRawQuery)
    (query : SerializedQuery) (hsort : query.description.sortBy = [])
    (htake : query.description.take = none ∨ query.description.take = some 0) :
    Outcome (allDeclared query.associations (Clause.onTablesList query.description.«where»))
      (allAccepted likeToRegexp (Clause.patternsList query.description.«where»))
      (encodeQuery likeToRegexp query) := by
  rw [encodeQuery_of_supported likeToRegexp query hsort htake]
  exact Outcome.map _ _
    (encodeRootConditions_outcome likeToRegexp query.associations query.description.«where»)
    (fun encoded => ⟨_, rfl⟩)

/-! Section: Joins and associations -/

/-- C12 as stated fails: with two associations whose `to` is `posts`, `On("posts", [])` is
encoded (with the keys of the first one in the list) instead of failing. -/
theorem on_two_matching_associations_counterexample :
    List.countP (fun association => "posts" == association.«to»)
        [(⟨"posts", ⟨.has_many, "author_id", "id"⟩⟩ : QueryAssociation),
         ⟨"posts", ⟨.belongs_to, "post_id", "parent_id"⟩⟩] = 2
    ∧ encodeCondition (fun s => some (str s))
        [⟨"posts", ⟨.has_many, "author_id", "id"⟩⟩,
         ⟨"posts", ⟨.belongs_to, "post_id", "parent_id"⟩⟩]
        (.on "posts" [])
      = .ok (obj [("$join", obj [
          ("table", str "posts"),
          ("query", undefined),
          ("originalConditions", clauses []),
          ("mapKey", str "author_id"),
          ("joinKey", str "id")])]) := by
  refine ⟨by decide, ?_⟩
  exact encodeCondition_on_of_find (fun s => some (str s)) _ "posts" []
    ⟨"posts", ⟨.has_many, "author_id", "id"⟩⟩ undefined (by decide)
    (by rw [encodeRootConditions_eq, encodeConditions_nil]; rfl)

/-- C12, amended: an `On` clause is encoded only if at least one association has the
clause's table as its `to`; it fails with the missing-association error when none has; when
at least one has and the root encoder encodes the conditions, it is encoded, however many
associations match; and the association used is the first one in list order whose `to` is
the table: the join carries the keys of that one, whatever follows it in the list. -/
theorem on_needs_some_association (likeToRegexp : String → Option LokiRawQuery)
    (associations : List QueryAssociation) (table : String) (conditions : List Clause) :
    ((∃ query, encodeCondition likeToRegexp associations (.on table conditions) = .ok query) →
        ∃ association ∈ associations, association.«to» = table)
    ∧ ((∀ association ∈ associations, association.«to» ≠ table) →
        encodeCondition likeToRegexp associations (.on table conditions)
          = .error .missingAssociation)
    ∧ ((∃ association ∈ associations, association.«to» = table) →
        (∃ encoded, encodeRootConditions likeToRegexp associations conditions = .ok encoded) →
        ∃ query, encodeCondition likeToRegexp associations (.on table conditions)
          = .ok query)
    ∧ (∀ (before after : List QueryAssociation) (first : QueryAssociation)
        (encoded : LokiRawQuery),
        associations = before ++ first :: after →
        (∀ association ∈ before, association.«to» ≠ table) →
        first.«to» = table →
        encodeRootConditions likeToRegexp associations conditions = .ok encoded →
        encodeCondition likeToRegexp associations (.on table conditions)
          = .ok (obj [("$join", obj [
              ("table", str table),
              ("query", encoded),
              ("originalConditions", clauses conditions),
              ("mapKey", str (encodeMapKey first.info)),
              ("joinKey", str (encodeJoinKey first.info))])])) := by
  have hnone : (¬ ∃ association ∈ associations, association.«to» = table) →
      encodeCondition likeToRegexp associations (.on table conditions)
        = .error .missingAssociation := by
    intro hno
    rw [encodeCondition_on, encodeJoin_eq,
      (find_association_eq_none associations table).2 hno]
  refine ⟨?_, ?_, ?_, ?_⟩
  · rintro ⟨query, hquery⟩
    by_contra hno
    rw [hnone hno] at hquery
    cases hquery
  · intro hall
    exact hnone (fun ⟨association, hin, hto⟩ => hall association hin hto)
  · rintro hsome ⟨encoded, hroot⟩
    cases hfind : associations.find? (fun association => table == association.«to») with
    | none => exact absurd hsome ((find_association_eq_none associations table).1 hfind)
    | some association =>
      exact ⟨_, encodeCondition_on_of_find likeToRegexp associations table conditions
        association encoded hfind hroot⟩
  · intro before after first encoded hsplit hbefore hfirst hroot
    have hfind : associations.find? (fun association => table == association.«to»)
        = some first := by
      rw [hsplit]
      clear hsplit hroot
      induction before with
      | nil => simp [List.find?, hfirst]
      | cons head rest ih =>
        have hhead : (table == head.«to») = false := by
          have := hbefore head (List.mem_cons_self _ _)
          simpa using fun h => this h.symm
        rw [List.cons_append, List.find?_cons, hhead]
        exact ih (fun association hin => hbefore association (List.mem_cons_of_mem _ hin))
    exact encodeCondition_on_of_find likeToRegexp associations table conditions first
      encoded hfind hroot

/-- Witness for the amended C12: `On("comments", [])` fails when only `posts` has an
association; with two associations for `posts` after one for `users`, `On("posts", [])` is
encoded with the keys of the first of the two. -/
theorem on_needs_some_association_witness :
    encodeCondition (fun s => some (str s)) [⟨"posts", ⟨.has_many, "author_id", "id"⟩⟩]
        (.on "comments" [])
      = .error .missingAssociation
    ∧ encodeCondition (fun s => some (str s))
        [⟨"users", ⟨.has_many, "user_id", "id"⟩⟩,
         ⟨"posts", ⟨.has_many, "author_id", "id"⟩⟩,
         ⟨"posts", ⟨.belongs_to, "post_id", "parent_id"⟩⟩]
        (.on "posts" [])
      = .ok (obj [("$join", obj [
          ("table", str "posts"),
          ("query", undefined),
          ("originalConditions", clauses []),
          ("mapKey", str "author_id"),
          ("joinKey", str "id")])]) :=
  ⟨(on_needs_some_association (fun s => some (str s))
      [⟨"posts", ⟨.has_many, "author_id", "id"⟩⟩] "comments" []).2.1 (by decide),
   (on_needs_some_association (fun s => some (str s))
      [⟨"users", ⟨.has_many, "user_id", "id"⟩⟩,
       ⟨"posts", ⟨.has_many, "author_id", "id"⟩⟩,
       ⟨"posts", ⟨.belongs_to, "post_id", "parent_id"⟩⟩] "posts" []).2.2.2
      [⟨"users", ⟨.has_many, "user_id", "id"⟩⟩]
      [⟨"posts", ⟨.belongs_to, "post_id", "parent_id"⟩⟩]
      ⟨"posts", ⟨.has_many, "author_id", "id"⟩⟩ undefined rfl (by decide) rfl
      (by rw [encodeRootConditions_eq, encodeConditions_nil]; rfl)⟩

/-! Section: Unsupported features -/

/-- C13 fails on the code at `take = 0`: the query is encoded, `take` being dropped, although
a take is present. -/
theorem encodeQuery_take_zero_is_encoded :
    encodeQuery (fun s => some (str s))
        { table := "posts",
          description := { «where» := [], joinTables := [], sortBy := [], take := some 0 },
          associations := [] }
      = .ok { table := "posts", query := undefined, hasJoins := false } := by
  rw [encodeQuery_of_supported _ _ rfl (Or.inr rfl), encodeRootConditions_eq,
    encodeConditions_nil]
  rfl

/-- C14: a query with a non-empty `sortBy` fails with the sortBy-not-supported error,
whatever its conditions, associations, join tables and take; no query is returned. -/
theorem encodeQuery_sortBy_fails (likeToRegexp : String → Option LokiRawQuery)
    (table : String) (conditions : List Clause) (joinTables : List String)
    (sortBy : List SortBy) (take : Option Int) (associations : List QueryAssociation)
    (hsort : sortBy ≠ []) :
    encodeQuery likeToRegexp
        { table := table,
          description :=
            { «where» := conditions, joinTables := joinTables, sortBy := sortBy, take := take },
          associations := associations }
      = .error .sortByNotSupported
    ∧ ∀ result, encodeQuery likeToRegexp
        { table := table,
          description :=
            { «where» := conditions, joinTables := joinTables, sortBy := sortBy, take := take },
          associations := associations }
      ≠ .ok result := by
  have h := encodeQuery_of_sortBy likeToRegexp
    { table := table,
      description :=
        { «where» := conditions, joinTables := joinTables, sortBy := sortBy, take := take },
      associations := associations } hsort
  refine ⟨h, ?_⟩
  intro result hresult
  rw [h] at hresult
  cases hresult

/-- Witness for C14: sorting by `name` with no condition and no take. -/
theorem encodeQuery_sortBy_fails_witness :
    encodeQuery (fun s => some (str s))
        { table := "posts",
          description :=
            { «where» := [], joinTables := [], sortBy := [⟨"name", "asc"⟩], take := none },
          associations := [] }
      = .error .sortByNotSupported :=
  (encodeQuery_sortBy_fails (fun s => some (str s)) "posts" [] [] [⟨"name", "asc"⟩] none []
    (by decide)).1

/-! Section: Pattern operators -/

/-- C15: with an operand that is not a string, `like` and `notLike` are encoded to the column
object around the empty operator object `{}`: no `$regex`, no `$not`, no `$and`, no
null-exclusion conjunct. -/
theorem where_like_notLike_non_string_empty (likeToRegexp : String → Option LokiRawQuery)
    (associations : List QueryAssociation) (c : String) (right : ComparisonRight)
    (v : CompoundValue) (hright : getComparisonRight right = .ok v)
    (hv : ∀ t : String, v ≠ .single (.str t)) :
    encodeCondition likeToRegexp associations (.where_ c ⟨.like, right⟩)
        = .ok (obj [(c, obj [])])
    ∧ encodeCondition likeToRegexp associations (.where_ c ⟨.notLike, right⟩)
        = .ok (obj [(c, obj [])]) := by
  have hnone := asString_eq_none_of_ne_str v hv
  constructor <;>
    rw [encodeCondition_where,
      encodeWhere_operators likeToRegexp c _ right v hright (Or.inl hnone)] <;>
    simp [operators, like, notLike, hnone] <;>
    rfl

/-- Witness for C15 at `Where("name", like, 5)` and `Where("name", notLike, 5)`. -/
theorem where_like_notLike_non_string_empty_witness :
    encodeCondition (fun s => some (str s)) [] (.where_ "name" ⟨.like, .value (.num 5)⟩)
        = .ok (obj [("name", obj [])])
    ∧ encodeCondition (fun s => some (str s)) [] (.where_ "name" ⟨.notLike, .value (.num 5)⟩)
        = .ok (obj [("name", obj [])]) :=
  where_like_notLike_non_string_empty (fun s => some (str s)) [] "name"
    (.value (.num 5)) (.single (.num 5)) rfl (fun _ hne => by cases hne)


/-- C16: for a string pattern `s`, if `like` is `{$regex: r}` (so `r` is what `likeToRegexp`
returns for `s`), then `notLike` is `$and` of the null exclusion `{$not: {$eq: null}}` and
the negation `{$not: {$regex: r}}` of that same `like` object, with the same `r`; a `Where`
clause carries these operator objects under its column. -/
theorem notLike_is_not_null_and_not_like (likeToRegexp : String → Option LokiRawQuery)
    (associations : List QueryAssociation) (c : String) (s : String) (r : LokiRawQuery)
    (hlike : like likeToRegexp (.single (.str s)) = .ok (obj [("$regex", r)])) :
    likeToRegexp s = some r
    ∧ notLike likeToRegexp (.single (.str s))
        = .ok (obj [("$and", arr [obj [("$not", obj [("$eq", LokiRawQuery.null)])],
            obj [("$not", obj [("$regex", r)])]])])
    ∧ encodeCondition likeToRegexp associations (.where_ c ⟨.like, .value (.str s)⟩)
        = .ok (obj [(c, obj [("$regex", r)])])
    ∧ encodeCondition likeToRegexp associations (.where_ c ⟨.notLike, .value (.str s)⟩)
        = .ok (obj [(c, obj [("$and", arr [obj [("$not", obj [("$eq", LokiRawQuery.null)])],
            obj [("$not", obj [("$regex", r)])]])])]) := by
  have hr : likeToRegexp s = some r := by
    cases h : likeToRegexp s with
    | none => simp [like, CompoundValue.asString, h] at hlike
    | some regexp =>
      simp [like, CompoundValue.asString, h, pure, Except.pure] at hlike
      rw [hlike]
  refine ⟨hr, ?_, ?_, ?_⟩
  · simp [notLike, CompoundValue.asString, hr, pure, Except.pure]
  · rw [encodeCondition_where,
      encodeWhere_operators likeToRegexp c _ (.value (.str s)) (.single (.str s)) rfl
        (Or.inr ⟨by decide, by decide⟩)]
    simp [operators, like, CompoundValue.asString, hr, bind, Except.bind, pure, Except.pure]
  · rw [encodeCondition_where,
      encodeWhere_operators likeToRegexp c _ (.value (.str s)) (.single (.str s)) rfl
        (Or.inr ⟨by decide, by decide⟩)]
    simp [operators, notLike, CompoundValue.asString, hr, bind, Except.bind, pure,
      Except.pure]

/-- Witness for C16 at the pattern `"a%"` with a `likeToRegexp` that accepts it. -/
theorem notLike_is_not_null_and_not_like_witness :
    like (fun s => some (str s)) (.single (.str "a%")) = .ok (obj [("$regex", str "a%")])
    ∧ notLike (fun s => some (str s)) (.single (.str "a%"))
        = .ok (obj [("$and", arr [obj [("$not", obj [("$eq", LokiRawQuery.null)])],
            obj [("$not", obj [("$regex", str "a%")])]])]) :=
  ⟨rfl, (notLike_is_not_null_and_not_like (fun s => some (str s)) [] "name" "a%" (str "a%")
    rfl).2.1⟩

/-! Section: Which failures can occur -/

/-- What a returned query is made of, and what had to hold for it to be returned. -/
theorem encodeQuery_ok_fields (likeToRegexp : String → Option LokiRawQuery)
    (query : SerializedQuery) (result : LokiQuery)
    (h : encodeQuery likeToRegexp query = .ok result) :
    query.description.sortBy = []
    ∧ (query.description.take = none ∨ query.description.take = some 0)
    ∧ encodeRootConditions likeToRegexp query.associations query.description.«where»
        = .ok result.query
    ∧ result.table = query.table
    ∧ result.hasJoins = decide (query.description.joinTables.length ≠ 0) := by
  by_cases hsort : query.description.sortBy = []
  · have hsupported : (query.description.take = none ∨ query.description.take = some 0) →
        encodeRootConditions likeToRegexp query.associations query.description.«where»
          = .ok result.query
        ∧ result.table = query.table
        ∧ result.hasJoins = decide (query.description.joinTables.length ≠ 0) := by
      intro htake
      rw [encodeQuery_of_supported likeToRegexp query hsort htake] at h
      cases hroot : encodeRootConditions likeToRegexp query.associations
          query.description.«where» with
      | error e =>
        rw [hroot] at h
        cases h
      | ok encoded =>
        rw [hroot] at h
        cases h
        exact ⟨rfl, rfl, rfl⟩
    cases htake : query.description.take with
    | none => exact ⟨hsort, Or.inl rfl, hsupported (Or.inl htake)⟩
    | some n =>
      by_cases hn : n = 0
      · subst hn
        exact ⟨hsort, Or.inr rfl, hsupported (Or.inr htake)⟩
      · rw [encodeQuery_of_take likeToRegexp query hsort n htake hn] at h
        cases h
  · rw [encodeQuery_of_sortBy likeToRegexp query hsort] at h
    cases h

/-- The failures of `encodeQuery`: the two rejected features, the missing association and
the failure of `likeToRegexp`. -/
theorem encodeQuery_error_cases (likeToRegexp : String → Option LokiRawQuery)
    (query : SerializedQuery) (e : EncodeError)
    (h : encodeQuery likeToRegexp query = .error e) :
    e = .sortByNotSupported ∨ e = .takeNotSupported ∨ e = .missingAssociation
      ∨ e = .likeToRegexpThrew := by
  by_cases hsort : query.description.sortBy = []
  · have hsupported : (query.description.take = none ∨ query.description.take = some 0) →
        e = .missingAssociation ∨ e = .likeToRegexpThrew := by
      intro htake
      rcases Outcome.error_cases _ e (encodeQuery_outcome likeToRegexp query hsort htake) h
        with ⟨he, _⟩ | ⟨he, _⟩
      · exact Or.inl he
      · exact Or.inr he
    cases htake : query.description.take with
    | none => exact Or.inr (Or.inr (hsupported (Or.inl htake)))
    | some n =>
      by_cases hn : n = 0
      · subst hn
        exact Or.inr (Or.inr (hsupported (Or.inr htake)))
      · rw [encodeQuery_of_take likeToRegexp query hsort n htake hn] at h
        cases h
        exact Or.inr (Or.inl rfl)
  · rw [encodeQuery_of_sortBy likeToRegexp query hsort] at h
    cases h
    exact Or.inl rfl

/-- C17: `getComparisonRight` raises the column-comparison failure only on a column
reference; `encodeWhereDescription` returns `hackAlwaysTrueCondition` for a column reference
without calling it, and never fails with the column-comparison failure; hence neither the
clause encoder nor `encodeQuery` ever fails with the column-comparison failure. -/
theorem column_comparison_failure_unreachable (likeToRegexp : String → Option LokiRawQuery)
    (query : SerializedQuery) :
    (∀ right e, getComparisonRight right = .error e →
        right.hasColumn = true ∧ e = .columnComparisonsUnimplemented)
    ∧ (∀ left operator column,
        encodeWhereDescription likeToRegexp left ⟨operator, .column column⟩
          = .ok hackAlwaysTrueCondition)
    ∧ (∀ left comparison,
        encodeWhereDescription likeToRegexp left comparison
          ≠ .error .columnComparisonsUnimplemented)
    ∧ (∀ associations clause,
        encodeCondition likeToRegexp associations clause
          ≠ .error .columnComparisonsUnimplemented)
    ∧ encodeQuery likeToRegexp query ≠ .error .columnComparisonsUnimplemented := by
  refine ⟨?_, fun _ _ _ => rfl, ?_, ?_, ?_⟩
  · intro right e h
    cases right with
    | value value => cases h
    | values values => cases h
    | column column =>
      cases h
      exact ⟨rfl, rfl⟩
  · intro left comparison h
    rcases Outcome.error_cases _ _
      (encodeWhereDescription_outcome likeToRegexp True trivial left comparison) h
      with ⟨he, _⟩ | ⟨he, _⟩ <;> cases he
  · intro associations clause h
    rcases Outcome.error_cases _ _
      (encodeCondition_outcome likeToRegexp associations clause) h
      with ⟨he, _⟩ | ⟨he, _⟩ <;> cases he
  · intro h
    rcases encodeQuery_error_cases likeToRegexp query _ h with he | he | he | he <;> cases he

/-! Section: When the entry point returns -/

/-- C11 as stated fails: with a `likeToRegexp` that throws on `"("`, the conditions
`[Where(name, like, "("), On("nope", [])]` contain an `On` for a table without association,
yet `encodeQuery` fails with the failure of `likeToRegexp`, raised by the first clause before
the `On` is reached, and not with the missing-association error. -/
theorem encodeQuery_undeclared_on_counterexample :
    "nope" ∈ Clause.onTablesList
        [.where_ "name" ⟨.like, .value (.str "(")⟩, .on "nope" []]
    ∧ (∀ association ∈ ([] : List QueryAssociation), association.«to» ≠ "nope")
    ∧ encodeQuery (fun s => if s = "(" then none else some (str s))
        { table := "posts",
          description :=
            { «where» := [.where_ "name" ⟨.like, .value (.str "(")⟩, .on "nope" []],
              joinTables := [], sortBy := [], take := none },
          associations := [] }
      = .error .likeToRegexpThrew
    ∧ encodeQuery (fun s => if s = "(" then none else some (str s))
        { table := "posts",
          description :=
            { «where» := [.where_ "name" ⟨.like, .value (.str "(")⟩, .on "nope" []],
              joinTables := [], sortBy := [], take := none },
          associations := [] }
      ≠ .error .missingAssociation := by
  have h : encodeQuery (fun s => if s = "(" then none else some (str s))
      { table := "posts",
        description :=
          { «where» := [.where_ "name" ⟨.like, .value (.str "(")⟩, .on "nope" []],
            joinTables := [], sortBy := [], take := none },
        associations := [] }
      = .error .likeToRegexpThrew := by
    rw [encodeQuery_of_supported _ _ rfl (Or.inl rfl)]
    show (encodeRootConditions _ []
      [.where_ "name" ⟨.like, .value (.str "(")⟩, .on "nope" []] >>= _) = _
    rw [encodeRootConditions_eq, encodeConditions_cons, encodeCondition_where,
      encodeWhereDescription_pattern_error _ "name" .like "(" (Or.inl rfl) (by simp)]
    rfl
  refine ⟨by decide, (fun _ hin => by cases hin), h, ?_⟩
  rw [h]
  intro hne
  cases hne

/-- C11, amended: with empty sort and absent take, a query whose conditions contain, at any
depth, an `On` clause for a table that is the `to` of no association fails (an error is the
whole result, there is no partial query): with the missing-association error whenever
`likeToRegexp` accepts every string pattern of the `like`/`notLike` comparisons of the
conditions, and in any case with that error or the failure of `likeToRegexp`; and a query
whose single root condition is an `On` for a table with an association, with conditions that
the root encoder encodes, succeeds. -/
theorem encodeQuery_undeclared_on_fails (likeToRegexp : String → Option LokiRawQuery)
    (table : String) (conditions : List Clause) (joinTables : List String)
    (associations : List QueryAssociation) (missing : String)
    (hmem : missing ∈ Clause.onTablesList conditions)
    (hmissing : ∀ association ∈ associations, association.«to» ≠ missing) :
    (∃ e, encodeQuery likeToRegexp
        { table := table,
          description :=
            { «where» := conditions, joinTables := joinTables, sortBy := [], take := none },
          associations := associations }
      = .error e ∧ (e = .missingAssociation ∨ e = .likeToRegexpThrew))
    ∧ ((∀ pattern ∈ Clause.patternsList conditions,
          ∃ regexp, likeToRegexp pattern = some regexp) →
        encodeQuery likeToRegexp
          { table := table,
            description :=
              { «where» := conditions, joinTables := joinTables, sortBy := [], take := none },
            associations := associations }
        = .error .missingAssociation)
    ∧ (∀ (declared : List QueryAssociation) (onTable : String) (onConditions : List Clause)
        (encoded : LokiRawQuery),
        (∃ association ∈ declared, association.«to» = onTable) →
        encodeRootConditions likeToRegexp declared onConditions = .ok encoded →
        ∃ result, encodeQuery likeToRegexp
            { table := table,
              description :=
                { «where» := [.on onTable onConditions], joinTables := joinTables,
                  sortBy := [], take := none },
              associations := declared }
          = .ok result) := by
  have hnot : ¬ allDeclared associations (Clause.onTablesList conditions) := by
    intro hall
    obtain ⟨association, hin, hto⟩ := hall missing hmem
    exact hmissing association hin hto
  have hout := encodeQuery_outcome likeToRegexp
    { table := table,
      description :=
        { «where» := conditions, joinTables := joinTables, sortBy := [], take := none },
      associations := associations } rfl (Or.inl rfl)
  refine ⟨?_, ?_, ?_⟩
  · cases h : encodeQuery likeToRegexp
        { table := table,
          description :=
            { «where» := conditions, joinTables := joinTables, sortBy := [], take := none },
          associations := associations } with
    | ok result => exact absurd ((Outcome.ok_iff _ hout).1 ⟨result, h⟩).1 hnot
    | error e =>
      refine ⟨e, rfl, ?_⟩
      rcases Outcome.error_cases _ e hout h with ⟨he, _⟩ | ⟨he, _⟩
      · exact Or.inl he
      · exact Or.inr he
  · intro haccepted
    exact Outcome.missing_of_accepted _ hout haccepted hnot
  · intro declared onTable onConditions encoded hdeclared hroot
    rw [encodeQuery_of_supported likeToRegexp _ rfl (Or.inl rfl)]
    show ∃ result, (encodeRootConditions likeToRegexp declared [.on onTable onConditions]
      >>= _) = _
    cases hfind : declared.find? (fun association => onTable == association.«to») with
    | none => exact absurd hdeclared ((find_association_eq_none declared onTable).1 hfind)
    | some association =>
      rw [encodeRootConditions_singleton,
        encodeCondition_on_of_find likeToRegexp declared onTable onConditions association
          encoded hfind hroot]
      exact ⟨_, rfl⟩

/-- Witness for the amended C11: `And([On("comments", [])])` with no association fails with
the missing-association error, and the root-level `On("posts", [])` with an association for
`posts` succeeds. -/
theorem encodeQuery_undeclared_on_fails_witness :
    encodeQuery (fun s => some (str s))
        { table := "posts",
          description :=
            { «where» := [.and [.on "comments" []]], joinTables := [], sortBy := [],
              take := none },
          associations := [] }
      = .error .missingAssociation
    ∧ ∃ result, encodeQuery (fun s => some (str s))
        { table := "posts",
          description :=
            { «where» := [.on "posts" []], joinTables := [], sortBy := [], take := none },
          associations := [⟨"posts", ⟨.has_many, "author_id", "id"⟩⟩] }
      = .ok result :=
  have h := encodeQuery_undeclared_on_fails (fun s => some (str s)) "posts"
    [.and [.on "comments" []]] [] [] "comments" (by decide) (fun _ hin => by cases hin)
  ⟨h.2.1 (fun _ hin => by cases hin),
   h.2.2 [⟨"posts", ⟨.has_many, "author_id", "id"⟩⟩] "posts" [] undefined
    ⟨_, List.mem_singleton.2 rfl, rfl⟩
    (by rw [encodeRootConditions_eq, encodeConditions_nil]; rfl)⟩

/-- C18 as stated fails: with a `likeToRegexp` that throws on `"("`, the query with the single
condition `Where(name, like, "(")`, no sort, no take and no `On` clause meets the three
conditions of the claim, yet `encodeQuery` returns no query. -/
theorem encodeQuery_returns_iff_counterexample :
    (([] : List SortBy) = []
      ∧ ((none : Option Int) = none ∨ (none : Option Int) = some 0)
      ∧ ∀ table ∈ Clause.onTablesList [.where_ "name" ⟨.like, .value (.str "(")⟩],
          ∃ association ∈ ([] : List QueryAssociation), association.«to» = table)
    ∧ ¬ ∃ result, encodeQuery (fun s => if s = "(" then none else some (str s))
        { table := "posts",
          description :=
            { «where» := [.where_ "name" ⟨.like, .value (.str "(")⟩],
              joinTables := [], sortBy := [], take := none },
          associations := [] }
      = .ok result := by
  refine ⟨⟨rfl, Or.inl rfl, fun table hin => by
    simp [Clause.onTablesList, Clause.onTables] at hin⟩, ?_⟩
  rintro ⟨result, hresult⟩
  rw [encodeQuery_of_supported _ _ rfl (Or.inl rfl)] at hresult
  have hroot : encodeRootConditions (fun s => if s = "(" then none else some (str s)) []
      [.where_ "name" ⟨.like, .value (.str "(")⟩] = .error .likeToRegexpThrew := by
    rw [encodeRootConditions_singleton, encodeCondition_where,
      encodeWhereDescription_pattern_error _ "name" .like "(" (Or.inl rfl) (by simp)]
  change (encodeRootConditions _ [] [.where_ "name" ⟨.like, .value (.str "(")⟩] >>= _) = _
    at hresult
  rw [hroot] at hresult
  cases hresult

/-- C18, amended: `encodeQuery` returns a query exactly when `sortBy` is empty, `take` is
absent or `0`, every `On` clause at any depth of the `where` list names a table that is the
`to` of at least one association, and `likeToRegexp` accepts every string pattern of the
`like`/`notLike` comparisons at any depth of the `where` list; otherwise it fails; and a
returned query has the table of the input and `hasJoins` true exactly when `joinTables` is
non-empty. -/
theorem encodeQuery_returns_iff (likeToRegexp : String → Option LokiRawQuery)
    (query : SerializedQuery) :
    ((∃ result, encodeQuery likeToRegexp query = .ok result)
      ↔ (query.description.sortBy = []
        ∧ (query.description.take = none ∨ query.description.take = some 0)
        ∧ (∀ table ∈ Clause.onTablesList query.description.«where»,
            ∃ association ∈ query.associations, association.«to» = table)
        ∧ (∀ pattern ∈ Clause.patternsList query.description.«where»,
            ∃ regexp, likeToRegexp pattern = some regexp)))
    ∧ ((¬ ∃ result, encodeQuery likeToRegexp query = .ok result)
      → ∃ e, encodeQuery likeToRegexp query = .error e)
    ∧ (∀ result, encodeQuery likeToRegexp query = .ok result →
        result.table = query.table
        ∧ (result.hasJoins = true ↔ query.description.joinTables ≠ [])) := by
  refine ⟨⟨?_, ?_⟩, ?_, ?_⟩
  · rintro ⟨result, hresult⟩
    obtain ⟨hsort, htake, _, _, _⟩ := encodeQuery_ok_fields likeToRegexp query result hresult
    have hboth := (Outcome.ok_iff _ (encodeQuery_outcome likeToRegexp query hsort htake)).1
      ⟨result, hresult⟩
    exact ⟨hsort, htake, hboth.1, hboth.2⟩
  · rintro ⟨hsort, htake, hdeclared, haccepted⟩
    exact (Outcome.ok_iff _ (encodeQuery_outcome likeToRegexp query hsort htake)).2
      ⟨hdeclared, haccepted⟩
  · intro hno
    cases h : encodeQuery likeToRegexp query with
    | ok result => exact absurd ⟨result, h⟩ hno
    | error e => exact ⟨e, rfl⟩
  · intro result hresult
    obtain ⟨_, _, _, htable, hjoins⟩ :=
      encodeQuery_ok_fields likeToRegexp query result hresult
    refine ⟨htable, ?_⟩
    rw [hjoins]
    simp [List.length_eq_zero]

/-- Witness for the amended C18: `take = 0` with `On("posts", [])` declared returns a query;
the same query with `take = 2` does not. -/
theorem encodeQuery_returns_iff_witness :
    (∃ result, encodeQuery (fun s => some (str s))
        { table := "users",
          description :=
            { «where» := [.on "posts" []], joinTables := ["posts"], sortBy := [],
              take := some 0 },
          associations := [⟨"posts", ⟨.has_many, "author_id", "id"⟩⟩] }
      = .ok result)
    ∧ ¬ ∃ result, encodeQuery (fun s => some (str s))
        { table := "users",
          description :=
            { «where» := [.on "posts" []], joinTables := ["posts"], sortBy := [],
              take := some 2 },
          associations := [⟨"posts", ⟨.has_many, "author_id", "id"⟩⟩] }
      = .ok result :=
  ⟨(encodeQuery_returns_iff (fun s => some (str s)) _).1.2
      ⟨rfl, Or.inr rfl, by
        intro table htable
        have : table = "posts" := by simpa [Clause.onTablesList, Clause.onTables] using htable
        exact ⟨_, List.mem_singleton.2 rfl, this.symm⟩,
       fun pattern hin => by simp [Clause.patternsList, Clause.patterns] at hin⟩,
   fun hresult =>
    absurd ((encodeQuery_returns_iff (fun s => some (str s)) _).1.1 hresult).2.1 (by decide)⟩

/-- The list of encoded queries has the length of the list of clauses. -/
theorem encodeConditions_length (likeToRegexp : String → Option LokiRawQuery)
    (associations : List QueryAssociation) (conditions : List Clause)
    (queries : List LokiRawQuery)
    (h : encodeConditions likeToRegexp associations conditions = .ok queries) :
    queries.length = conditions.length :=
  (((encodeConditions_eq_ok_iff likeToRegexp associations conditions queries).1 h).length_eq).symm

/-- C19: `And` and `Or` with no child are encoded, without failure, to `{$and: []}` and
`{$or: []}`, whereas the root encoder gives `undefined` for no condition, a different value;
and the root encoder on a list agrees with the encoding of `And` of that list exactly when
the list is non-empty. -/
theorem empty_and_or_differ_from_root (likeToRegexp : String → Option LokiRawQuery)
    (associations : List QueryAssociation) :
    encodeCondition likeToRegexp associations (.and []) = .ok (obj [("$and", arr [])])
    ∧ encodeCondition likeToRegexp associations (.or []) = .ok (obj [("$or", arr [])])
    ∧ encodeRootConditions likeToRegexp associations [] = .ok undefined
    ∧ obj [("$and", arr [])] ≠ undefined
    ∧ obj [("$or", arr [])] ≠ undefined
    ∧ ∀ cs : List Clause,
        encodeRootConditions likeToRegexp associations cs
            = encodeCondition likeToRegexp associations (.and cs)
          ↔ cs ≠ [] := by
  have hand : encodeCondition likeToRegexp associations (.and [])
      = .ok (obj [("$and", arr [])]) := by
    rw [encodeCondition_and, encodeAndOr_eq, encodeConditions_nil]
    rfl
  have hor : encodeCondition likeToRegexp associations (.or [])
      = .ok (obj [("$or", arr [])]) := by
    rw [encodeCondition_or, encodeAndOr_eq, encodeConditions_nil]
    rfl
  have hroot : encodeRootConditions likeToRegexp associations [] = .ok undefined := by
    rw [encodeRootConditions_eq, encodeConditions_nil]
    rfl
  refine ⟨hand, hor, hroot, by simp, by simp, ?_⟩
  intro cs
  constructor
  · intro heq hnil
    subst hnil
    rw [hroot, hand] at heq
    cases heq
  · intro hne
    match cs, hne with
    | [c], _ =>
      rw [encodeRootConditions_singleton, encodeCondition_and, encodeAndOr_singleton]
    | c :: c2 :: rest, _ =>
      rw [encodeCondition_and, encodeAndOr_eq, encodeRootConditions_eq]
      cases h : encodeConditions likeToRegexp associations (c :: c2 :: rest) with
      | error e => rfl
      | ok queries =>
        have hlen := encodeConditions_length likeToRegexp associations _ queries h
        match queries, hlen with
        | _ :: _ :: _, _ => rfl

/-! Section: Independence from the associations -/

/-- A clause tree without `On` clause is encoded to the same result under any two
association lists. -/
theorem encodeCondition_independent (likeToRegexp : String → Option LokiRawQuery)
    (first second : List QueryAssociation) (clause : Clause) :
    clause.onTables = [] →
      encodeCondition likeToRegexp first clause = encodeCondition likeToRegexp second clause := by
  refine Clause.induction
    (P := fun clause => clause.onTables = [] →
      encodeCondition likeToRegexp first clause = encodeCondition likeToRegexp second clause)
    (Q := fun conditions => Clause.onTablesList conditions = [] →
      encodeConditions likeToRegexp first conditions
        = encodeConditions likeToRegexp second conditions)
    ?_ ?_ ?_ ?_ ?_ ?_ ?_ clause
  · intro left comparison _
    rw [encodeCondition_where, encodeCondition_where]
  · intro conditions ih h
    rw [encodeCondition_and, encodeCondition_and, encodeAndOr_eq, encodeAndOr_eq,
      ih (by simpa [Clause.onTables] using h)]
  · intro conditions ih h
    rw [encodeCondition_or, encodeCondition_or, encodeAndOr_eq, encodeAndOr_eq,
      ih (by simpa [Clause.onTables] using h)]
  · intro table conditions _ h
    simp [Clause.onTables] at h
  · intro expr _
    rw [encodeCondition_loki, encodeCondition_loki]
  · intro _
    show encodeConditions likeToRegexp first [] = encodeConditions likeToRegexp second []
    rw [encodeConditions_nil, encodeConditions_nil]
  · intro head rest ihHead ihRest h
    have hboth : head.onTables = [] ∧ Clause.onTablesList rest = [] := by
      simpa [Clause.onTablesList] using h
    show encodeConditions likeToRegexp first (head :: rest)
      = encodeConditions likeToRegexp second (head :: rest)
    rw [encodeConditions_cons, encodeConditions_cons, ihHead hboth.1, ihRest hboth.2]

/-- C20 as stated fails: with a `likeToRegexp` that throws on `"a["`, the clause
`Where(name, notLike, "a[")` contains no `On` clause, yet it is not encoded under any
association list. -/
theorem no_on_not_always_encoded_counterexample :
    (Clause.where_ "name" ⟨.notLike, .value (.str "a[")⟩).onTables = []
    ∧ ∀ associations : List QueryAssociation,
        encodeCondition (fun s => if s = "a[" then none else some (str s)) associations
            (.where_ "name" ⟨.notLike, .value (.str "a[")⟩)
          = .error .likeToRegexpThrew := by
  refine ⟨rfl, fun associations => ?_⟩
  rw [encodeCondition_where,
    encodeWhereDescription_pattern_error _ "name" .notLike "a[" (Or.inr rfl) (by simp)]

/-- C20, amended: for a clause tree that contains no `On` clause at any depth the result of
the encoder does not depend on the association list: any two association lists give the
same result, the same query or the same failure; the tree is encoded (to one query for all
association lists) exactly when `likeToRegexp` accepts every string pattern of its
`like`/`notLike` comparisons, and its only failure is the failure of `likeToRegexp`. -/
theorem no_on_independent_of_associations (likeToRegexp : String → Option LokiRawQuery)
    (clause : Clause) (hno : clause.onTables = []) :
    (∀ first second : List QueryAssociation,
        encodeCondition likeToRegexp first clause
          = encodeCondition likeToRegexp second clause)
    ∧ ((∃ query, ∀ associations : List QueryAssociation,
          encodeCondition likeToRegexp associations clause = .ok query)
        ↔ ∀ pattern ∈ clause.patterns, ∃ regexp, likeToRegexp pattern = some regexp)
    ∧ (∀ (associations : List QueryAssociation) (e : EncodeError),
        encodeCondition likeToRegexp associations clause = .error e →
          e = .likeToRegexpThrew) := by
  have hall : ∀ associations : List QueryAssociation,
      allDeclared associations clause.onTables := by
    intro associations
    rw [hno]
    exact allDeclared_nil associations
  refine ⟨fun first second =>
    encodeCondition_independent likeToRegexp first second clause hno, ⟨?_, ?_⟩, ?_⟩
  · rintro ⟨query, hquery⟩
    exact ((Outcome.ok_iff _ (encodeCondition_outcome likeToRegexp [] clause)).1
      ⟨query, hquery []⟩).2
  · intro haccepted
    obtain ⟨query, hquery⟩ :=
      (Outcome.ok_iff _ (encodeCondition_outcome likeToRegexp [] clause)).2
        ⟨hall [], haccepted⟩
    refine ⟨query, fun associations => ?_⟩
    rw [encodeCondition_independent likeToRegexp associations [] clause hno, hquery]
  · intro associations e h
    rcases Outcome.error_cases _ e
      (encodeCondition_outcome likeToRegexp associations clause) h with ⟨_, hn⟩ | ⟨he, _⟩
    · exact absurd (hall associations) hn
    · exact he

/-- Witness for the amended C20 at `Or([Where(a, eq, 1), And([])])`, encoded with no
association and with an association for `posts`. -/
theorem no_on_independent_of_associations_witness :
    (Clause.or [.where_ "a" ⟨.eq, .value (.num 1)⟩, .and []]).onTables = []
    ∧ encodeCondition (fun s => some (str s)) []
        (.or [.where_ "a" ⟨.eq, .value (.num 1)⟩, .and []])
      = encodeCondition (fun s => some (str s)) [⟨"posts", ⟨.has_many, "author_id", "id"⟩⟩]
        (.or [.where_ "a" ⟨.eq, .value (.num 1)⟩, .and []]) :=
  ⟨by decide,
   (no_on_independent_of_associations (fun s => some (str s))
      (.or [.where_ "a" ⟨.eq, .value (.num 1)⟩, .and []]) (by decide)).1 []
      [⟨"posts", ⟨.has_many, "author_id", "id"⟩⟩]⟩

end EncodeQuery
